import Mathlib

/-! # Verification of `search-sort-rs`

A shallow embedding of the `search_sort` Rust crate (modules `search.rs` and
`sort.rs`) over `List Int` (and, for the stability analysis, over key/index
pairs `Int × Nat` compared only by key, modelling a user-defined `Ord`
implementation that compares only the key).

Modelling conventions:
* Rust slices become Lean lists; in-place mutation becomes returning the new
  list.
* A Rust panic (index out of bounds, integer underflow, `Option::unwrap` on
  `None`) is modelled by returning `none` in an outer `Option` layer, so
  functions that can panic have result type `Option _`.  For the search
  functions, whose Rust result is already `Option<usize>`, the embedded result
  type is `Option (Option Nat)`: `none` is a panic, `some r` is a normal
  return of `r`.
* Rust loops that are not structurally recursive are given an explicit fuel
  argument; the public wrappers supply enough fuel, and the lemmas below prove
  that this fuel suffices (so running out of fuel coincides with divergence,
  which the Rust code cannot exhibit on the inputs covered by the lemmas).
* `T: Ord` becomes a comparison function `cmp : α → α → Ordering`; the
  concrete instantiation at `Int` is `cmpInt`, matching Rust's total order on
  integers.  Rust `a < b` is `cmp a b = .lt`, `a == b` is `cmp a b = .eq`,
  `a > b` is `cmp a b = .gt`.
* `(slice.len() as f64).sqrt() as usize` in `jump` is modelled by `Nat.sqrt`:
  for every length that fits in an `f64`-exact integer range the two agree
  (IEEE-754 `sqrt` is correctly rounded, so truncating it at an integer input
  below `2^52` yields the integer square root).
-/

namespace SearchSort

/-- Rust's `Ord::cmp` for integers. -/
def cmpInt (a b : Int) : Ordering :=
  if a < b then .lt else if a = b then .eq else .gt

/-- Key/index pairs compared only by key: a lawful Rust `Ord` implementation
on a pair type whose `cmp` (and hence `==`, `<`, `>`) looks only at the first
component.  Used for the stability claims. -/
def keyCmp (a b : Int × Nat) : Ordering := cmpInt a.1 b.1

/-- `sort::test` (alias `sort::is_sorted`): walks the list once and returns
`false` as soon as some element is greater than its successor. -/
def testG (cmp : α → α → Ordering) : List α → Bool
  | [] => true
  | [_] => true
  | a :: b :: t => if cmp a b = .gt then false else testG cmp (b :: t)

/-- `sort::test` at `Int`. -/
def testI (s : List Int) : Bool := testG cmpInt s

/-- `sort::is_sorted`, the alias for `sort::test`. -/
def is_sortedI (s : List Int) : Bool := testI s

/-- One bubble-sort pass with `f` adjacent comparisons (Rust's
`for i in 1..n` loop with `f = n - 1`), returning the new list together with
`newn`, the index of the last swap performed (`0` if no swap happened). -/
def passAux (cmp : α → α → Ordering) : Nat → List α → List α × Nat
  | _, [] => ([], 0)
  | _, [a] => ([a], 0)
  | 0, l => (l, 0)
  | f + 1, a :: b :: t =>
    if cmp a b = .gt then
      let r := passAux cmp f (a :: t)
      (b :: r.1, if r.2 = 0 then 1 else r.2 + 1)
    else
      let r := passAux cmp f (b :: t)
      (a :: r.1, if r.2 = 0 then 0 else r.2 + 1)

/-- The outer `while n > 1` loop of `sort::bubble`.  The loop variable `n`
strictly decreases (`passAux` returns a last-swap index `< n`), so fuel
`≥ n` suffices; the wrapper `bubbleG` supplies it. -/
def bubbleLoop (cmp : α → α → Ordering) : Nat → Nat → List α → List α
  | 0, _, s => s
  | f + 1, n, s =>
    if 1 < n then
      let r := passAux cmp (n - 1) s
      bubbleLoop cmp f r.2 r.1
    else s

/-- `sort::bubble` over an arbitrary comparison. -/
def bubbleG (cmp : α → α → Ordering) (s : List α) : List α :=
  bubbleLoop cmp s.length s.length s

/-- `sort::bubble` at `Int`. -/
def bubbleI (s : List Int) : List Int := bubbleG cmpInt s

/-- The merge loop of `sort::merge`: cursors `i` (over the copied-out left
half) and `j` (over the in-place right half) become structural recursion on
the two lists; the output prefix `slice[0..i+j]` is the constructed list.
The loop checks `i == mid` first (left list consumed: the right tail is
already in place), then `mid + j == slice.len()` (right list consumed):
there the code runs `slice[(mid + i)..].clone_from_slice(&left[i..])`, whose
destination has `len - mid - i` elements but whose source has `mid - i`, so
`clone_from_slice` panics on the length mismatch unless `len = 2 * mid`,
i.e. unless the slice length is even.  The flag `mismatch` records
`len ≠ 2 * mid` and the panic is the outer `none`.  In the `Ordering::Equal`
case the code writes the *left* element into both `slice[i+j]` and
`slice[i+j+1]` and advances both cursors, so the output receives two copies
of the left element and the right element is dropped. -/
def mergeLoopG (cmp : α → α → Ordering) (mismatch : Bool) :
    List α → List α → Option (List α)
  | [], rs => some rs
  | ls, [] => if mismatch then none else some ls
  | l :: ls, r :: rs =>
    match cmp l r with
    | .lt => (mergeLoopG cmp mismatch ls (r :: rs)).map (fun t => l :: t)
    | .eq => (mergeLoopG cmp mismatch ls rs).map (fun t => l :: l :: t)
    | .gt => (mergeLoopG cmp mismatch (l :: ls) rs).map (fun t => r :: t)

/-- `sort::merge` with fuel: each recursive call halves the list, so fuel
`≥ length` suffices (supplied by the wrapper `mergeG`); exhausted fuel on a
list still needing work is `none` (unreachable with that fuel).  The merge
loop receives the mismatch flag `length % 2 == 1` — exactly
`length - mid ≠ mid`, the length mismatch of the loop's final
`clone_from_slice` — and a panic (`none`) in the loop or in a recursive
call propagates. -/
def mergeF (cmp : α → α → Ordering) : Nat → List α → Option (List α)
  | 0, s => if 1 < s.length then none else some s
  | f + 1, s =>
    if 1 < s.length then
      match mergeF cmp f (s.take (s.length / 2)) with
      | none => none
      | some left =>
        match mergeF cmp f (s.drop (s.length / 2)) with
        | none => none
        | some right => mergeLoopG cmp (s.length % 2 == 1) left right
    else some s

/-- `sort::merge` over an arbitrary comparison; `none` is a panic. -/
def mergeG (cmp : α → α → Ordering) (s : List α) : Option (List α) :=
  mergeF cmp s.length s

/-- `sort::merge` at `Int`; `none` is a panic. -/
def mergeI (s : List Int) : Option (List Int) := mergeG cmpInt s

/-- Rust `slice.swap i j`; panics (`none`) if either index is out of
bounds. -/
def swapL (l : List Int) (i j : Nat) : Option (List Int) :=
  match l[i]?, l[j]? with
  | some a, some b => some ((l.set i b).set j a)
  | _, _ => none

/-- The `while slice[lo] < slice[pivot] { lo += 1 }` scan of
`sort::quick_partition`.  Each step reads `slice[lo]`, so running off the end
is a panic (`none`).  The scan moves at most `length + 1` steps before either
stopping or panicking, so the caller's fuel `length + 1` is exact. -/
def scanLo (s : List Int) (pv : Int) : Nat → Nat → Option Nat
  | 0, _ => none
  | f + 1, lo =>
    match s[lo]? with
    | none => none
    | some a => if a < pv then scanLo s pv f (lo + 1) else some lo

/-- The `while hi > 0 && slice[hi] > slice[pivot] { hi -= 1 }` scan of
`sort::quick_partition`; structural on `hi`, stopping at `0` without a read
(the `&&` short-circuits). -/
def scanHi (s : List Int) (pv : Int) : Nat → Option Nat
  | 0 => some 0
  | hi + 1 =>
    match s[hi + 1]? with
    | none => none
    | some a => if pv < a then scanHi s pv hi else some (hi + 1)

/-- The main `loop` of `sort::quick_partition`, with state `(lo, hi, pivot,
equal)` and fuel.  Each iteration re-reads the pivot element, optionally
advances `lo` (the `equal` flag), runs the two scans, and then either breaks
(`lo >= hi`: swap the pivot into place and return `lo`), records an equal
pair, or swaps — updating the tracked pivot position when the pivot itself is
swapped. -/
def partLoop : List Int → Nat → Nat → Nat → Bool → Nat → Option (List Int × Nat)
  | _, _, _, _, _, 0 => none
  | s, lo, hi, pivot, equal, f + 1 =>
    match s[pivot]? with
    | none => none
    | some pv =>
      let lo1 := if equal then lo + 1 else lo
      match scanLo s pv (s.length + 1) lo1 with
      | none => none
      | some lo2 =>
        match scanHi s pv hi with
        | none => none
        | some hi2 =>
          if hi2 ≤ lo2 then
            match swapL s lo2 pivot with
            | none => none
            | some s2 => some (s2, lo2)
          else
            match s[lo2]?, s[hi2]? with
            | some a, some b =>
              if a = b then partLoop s lo2 hi2 pivot true f
              else
                let pivot2 := if lo2 = pivot then hi2 else if hi2 = pivot then lo2 else pivot
                match swapL s lo2 hi2 with
                | none => none
                | some s2 => partLoop s2 lo2 hi2 pivot2 false f
            | _, _ => none

/-- `sort::quick_partition`.  On the empty slice Rust computes `n - 1` on
`usize` zero: an arithmetic-underflow panic in debug builds, and in release
builds the wrapped value is immediately used to index the empty slice, an
out-of-bounds panic — either way a panic, modelled as `none`.  On a non-empty
slice the loop starts at `lo = 0`, `hi = pivot = n - 1`.  The fuel
`4 * length + 8` is sufficient (proved below), so `none` never occurs for
non-empty input. -/
def quick_partitionI (s : List Int) : Option (List Int × Nat) :=
  match s.length with
  | 0 => none
  | n + 1 => partLoop s 0 n n false (4 * s.length + 8)

/-- `sort::quick` with fuel for the recursion depth: sorting the sub-slices
strictly before and strictly after the returned pivot position becomes
`take`/`drop` and re-concatenation.  Fuel `≥ length` suffices (proved
below). -/
def quickF : Nat → List Int → Option (List Int)
  | f, s =>
    if s.length ≤ 1 then some s
    else
      match f with
      | 0 => none
      | f + 1 =>
        match quick_partitionI s with
        | none => none
        | some (s2, p) =>
          match s2[p]? with
          | none => none
          | some piv =>
            match quickF f (s2.take p) with
            | none => none
            | some left =>
              match quickF f (s2.drop (p + 1)) with
              | none => none
              | some right => some (left ++ piv :: right)

/-- `sort::quick` at `Int`. -/
def quickI (s : List Int) : Option (List Int) := quickF s.length s

/-- Specification-only: the loop invariant of `partLoop` with pivot value
`pv`.  `hi` and `pivot` are in bounds, the pivot slot holds `pv`, everything
left of `lo` is `≤ pv`, everything right of `hi` is `≥ pv`, the `equal` flag
records a pivot-valued pair at `lo < hi`, and whenever the tracked pivot slot
has fallen behind `lo` a pivot-valued stopper remains in `[lo, hi]`. -/
def PartInv (s : List Int) (lo hi pivot : Nat) (equal : Bool) (pv : Int) : Prop :=
  hi < s.length ∧ pivot < s.length ∧ s[pivot]? = some pv ∧
  (∀ k, k < lo → ∀ a, s[k]? = some a → a ≤ pv) ∧
  (∀ k, hi < k → ∀ a, s[k]? = some a → pv ≤ a) ∧
  (equal = true → lo < hi ∧ s[lo]? = some pv ∧ s[hi]? = some pv) ∧
  (pivot < lo → ∃ j, lo ≤ j ∧ j ≤ hi ∧ s[j]? = some pv)

/-- Specification-only: the partition post-condition relative to the entry
slice `s0`: the result is a permutation, the returned index is in bounds and
holds the pivot value, with everything before it `≤` and everything after it
`≥` that value. -/
def PartPost (s0 s2 : List Int) (p : Nat) (pv : Int) : Prop :=
  s2.Perm s0 ∧ p < s0.length ∧ s2[p]? = some pv ∧
  (∀ k, k < p → ∀ a, s2[k]? = some a → a ≤ pv) ∧
  (∀ k, p < k → ∀ a, s2[k]? = some a → pv ≤ a)

/-- Specification-only: the termination measure of `partLoop`. -/
def partMu (lo hi : Nat) (equal : Bool) : Nat :=
  2 * (hi + 1 - lo) + (if equal then 0 else 1)

/-- Specification-only: the state immediately after a swap that moved neither
cursor: the values at `lo` and `hi` straddle `pv` and differ, which forces one
of the scans to move on the next iteration. -/
def PartFlat (s : List Int) (lo hi : Nat) (pv : Int) : Prop :=
  lo < hi ∧ ∃ a b, s[lo]? = some b ∧ s[hi]? = some a ∧ b ≤ pv ∧ pv ≤ a ∧ a ≠ b

/-- `search::linear`: index of the first element equal to `value`. -/
def linearI (s : List Int) (v : Int) : Option Nat :=
  match s with
  | [] => none
  | a :: t => if v = a then some 0 else (linearI t v).map (· + 1)

/-- `search::binary` with fuel (the recursion descends to a strictly shorter
slice, so fuel `≥ length` suffices).  The unguarded read `slice[mid]` panics
exactly on the empty slice. -/
def binaryF : Nat → List Int → Int → Option (Option Nat)
  | 0, _, _ => none
  | f + 1, s, v =>
    let mid := s.length / 2
    match s[mid]? with
    | none => none
    | some m =>
      match cmpInt v m with
      | .lt => if 0 < mid then binaryF f (s.take mid) v else some none
      | .eq => some (some mid)
      | .gt =>
        if mid < s.length - 1 then
          match binaryF f (s.drop (mid + 1)) v with
          | none => none
          | some none => some none
          | some (some x) => some (some (x + mid + 1))
        else some none

/-- `search::binary`. -/
def binaryI (s : List Int) (v : Int) : Option (Option Nat) := binaryF s.length s v

/-- The backward scan of `search::binary_first` over `slice[0..pos]`:
`(greatest i with slice[i] < value) + 1`, or `0` when every element is
`≥ value`. -/
def bfBack (v : Int) : List Int → Nat
  | [] => 0
  | a :: t =>
    let r := bfBack v t
    if r = 0 then (if a < v then 1 else 0) else r + 1

/-- `search::binary_first`: runs `binary`, then walks backward from the found
position to the leftmost element not less than `value`. -/
def binary_firstI (s : List Int) (v : Int) : Option (Option Nat) :=
  match binaryI s v with
  | none => none
  | some none => some none
  | some (some pos) => some (some (bfBack v (s.take pos)))

/-- Rust `&slice[a..b]` (panics when `a > b` or `b > len`; the caller checks
that before calling). -/
def sliceL (l : List Int) (a b : Nat) : List Int := (l.drop a).take (b - a)

/-- The jump loop of `search::jump_step` (the `for i in 0..len/step` loop,
`step ≥ 2`).  The iterator position is `i * step`; `k` counts the remaining
iterations (`k = len/step - i`), `pos` is the last confirmed block start.
`.inl r` models `return r` from inside the loop; `.inr (pos, found)` models
falling through to the trailing linear scan.  The `i >= len` test is the
(dead) in-loop bounds check of the source, and the final fuel test models the
`iter.nth(step - 2).unwrap()` call, which panics when fewer than `step - 1`
elements remain. -/
def jumpLoop (s : List Int) (v : Int) (step : Nat) :
    Nat → Nat → Nat → Option (Option Nat ⊕ Nat × Bool)
  | 0, _, pos => some (.inr (pos, false))
  | k + 1, i, pos =>
    match s[i * step]? with
    | none => none
    | some a =>
      match cmpInt v a with
      | .lt => if i = 0 then some (.inl none) else some (.inr (pos, true))
      | .eq => some (.inl (some (i * step)))
      | .gt =>
        if s.length ≤ i then some (.inl none)
        else if (i + 1) * step ≤ s.length then jumpLoop s v step k (i + 1) (i * step)
        else none

/-- `search::jump_step`. -/
def jump_stepI (s : List Int) (v : Int) (step : Nat) : Option (Option Nat) :=
  if step = 1 then some (linearI s v)
  else if step = 0 then
    match s[0]? with
    | none => none
    | some a => some (if a = v then some 0 else none)
  else
    match jumpLoop s v step (s.length / step) 0 0 with
    | none => none
    | some (.inl r) => some r
    | some (.inr (pos, found)) =>
      let e := if found then pos + step else s.length
      if pos + 1 ≤ e ∧ e ≤ s.length then
        some ((linearI (sliceL s (pos + 1) e) v).map (· + pos + 1))
      else none

/-- `search::jump`: `jump_step` with `step = ⌊√len⌋`. -/
def jumpI (s : List Int) (v : Int) : Option (Option Nat) :=
  jump_stepI s v (Nat.sqrt s.length)

/-! ## Basic facts about the comparator -/

theorem cmpInt_eq_lt {a b : Int} : cmpInt a b = .lt ↔ a < b := by
  unfold cmpInt
  split <;> rename_i h
  · simp [h]
  · split <;> rename_i h2 <;> simp [h, h2]

theorem cmpInt_eq_eq {a b : Int} : cmpInt a b = .eq ↔ a = b := by
  unfold cmpInt
  split <;> rename_i h
  · simp [h]
    omega
  · split <;> rename_i h2 <;> simp [h, h2]

theorem cmpInt_eq_gt {a b : Int} : cmpInt a b = .gt ↔ b < a := by
  unfold cmpInt
  split <;> rename_i h
  · simp [h]
    omega
  · split <;> rename_i h2 <;> (simp [h, h2]; all_goals omega)

theorem cmpInt_ne_gt {a b : Int} : ¬ cmpInt a b = .gt ↔ a ≤ b := by
  rw [cmpInt_eq_gt]
  omega

/-! ## `test` / `is_sorted` -/

theorem testI_iff_sorted : ∀ s : List Int, testI s = true ↔ s.Sorted (· ≤ ·)
  | [] => by simp [testI, testG]
  | [a] => by simp [testI, testG]
  | a :: b :: t => by
    have ih := testI_iff_sorted (b :: t)
    simp only [testI, testG] at ih ⊢
    by_cases h : cmpInt a b = .gt
    · have hba := cmpInt_eq_gt.mp h
      rw [if_pos h]
      simp only [Bool.false_eq_true, false_iff]
      intro hs
      exact absurd ((List.sorted_cons.mp hs).1 b (by simp)) (by omega)
    · rw [if_neg h, ih]
      rw [cmpInt_ne_gt] at h
      constructor
      · intro hs
        refine List.sorted_cons.mpr ⟨?_, hs⟩
        intro x hx
        rcases List.mem_cons.mp hx with rfl | hx
        · exact h
        · exact le_trans h ((List.sorted_cons.mp hs).1 x hx)
      · intro hs
        exact (List.sorted_cons.mp hs).2

theorem is_sortedI_iff_sorted (s : List Int) :
    is_sortedI s = true ↔ s.Sorted (· ≤ ·) := testI_iff_sorted s

/-! ## `linear` -/

theorem linearI_eq_some {s : List Int} {v : Int} {i : Nat}
    (h : linearI s v = some i) : s[i]? = some v ∧ ∀ j, j < i → s[j]? ≠ some v := by
  induction s generalizing i with
  | nil => simp [linearI] at h
  | cons a t ih =>
    rw [linearI] at h
    by_cases hv : v = a
    · rw [if_pos hv] at h
      cases h
      simp [hv]
    · rw [if_neg hv] at h
      match ht : linearI t v with
      | none => rw [ht] at h; simp at h
      | some k =>
        rw [ht] at h
        simp only [Option.map_some'] at h
        cases h
        obtain ⟨h1, h2⟩ := ih ht
        refine ⟨by rw [List.getElem?_cons_succ]; exact h1, ?_⟩
        intro j hj
        match j with
        | 0 => simpa using fun hh => hv hh.symm
        | j + 1 =>
          simp only [List.getElem?_cons_succ]
          exact h2 j (by omega)

theorem linearI_eq_none_iff {s : List Int} {v : Int} :
    linearI s v = none ↔ v ∉ s := by
  induction s with
  | nil => simp [linearI]
  | cons a t ih =>
    rw [linearI]
    by_cases hv : v = a
    · simp [hv]
    · rw [if_neg hv]
      cases hl : linearI t v <;> simp_all

theorem linearI_isSome_iff {s : List Int} {v : Int} :
    (linearI s v).isSome = true ↔ v ∈ s := by
  rw [← Decidable.not_iff_not, ← linearI_eq_none_iff]
  cases linearI s v <;> simp

/-! ## `binary` -/

/-- A sorted list bounds its elements by any element at a larger index. -/
theorem sorted_getElem_le {s : List Int} (hs : s.Sorted (· ≤ ·)) {i j : Nat}
    (hij : i ≤ j) (hj : j < s.length) : s[i] ≤ s[j] := by
  rcases Nat.eq_or_lt_of_le hij with rfl | hlt
  · exact le_refl _
  · exact List.pairwise_iff_getElem.mp hs i j (by omega) hj hlt

/-- `binary` never panics on a non-empty slice and any returned index is a
true match, with no sortedness assumption. -/
theorem binaryF_sound : ∀ (f : Nat) (s : List Int) (v : Int), s.length ≤ f → s ≠ [] →
    ∃ r, binaryF f s v = some r ∧ ∀ i, r = some i → s[i]? = some v := by
  intro f
  induction f with
  | zero =>
    intro s v hf hs
    exact absurd (List.length_pos.mpr hs) (by omega)
  | succ f ih =>
    intro s v hf hs
    have hlen : 0 < s.length := List.length_pos.mpr hs
    have hmid : s.length / 2 < s.length := Nat.div_lt_self hlen (by omega)
    have hm : s[s.length / 2]? = some (s[s.length / 2]) := List.getElem?_eq_getElem hmid
    rcases hc : cmpInt v (s[s.length / 2]) with _ | _ | _
    · -- Less: recurse on the first half when `mid > 0`
      by_cases h0 : 0 < s.length / 2
      · have htl : (s.take (s.length / 2)).length ≤ f := by
          simp [List.length_take]
          omega
        have htn : s.take (s.length / 2) ≠ [] := by
          rw [← List.length_pos, List.length_take]
          omega
        obtain ⟨r, hr, hsound⟩ := ih (s.take (s.length / 2)) v htl htn
        refine ⟨r, ?_, ?_⟩
        · simp only [binaryF, hm, hc, if_pos h0]
          exact hr
        · intro i hi
          have := hsound i hi
          rw [List.getElem?_take] at this
          split at this
          · exact this
          · exact absurd this (by simp)
      · refine ⟨none, ?_, by simp⟩
        simp only [binaryF, hm, hc, if_neg h0]
    · -- Equal: return `mid`
      exact ⟨some (s.length / 2), by simp only [binaryF, hm, hc], by
        intro i hi
        cases hi
        rw [hm, Option.some_inj, cmpInt_eq_eq.mp hc]⟩
    · -- Greater: recurse on the second half when `mid < len - 1`
      by_cases h1 : s.length / 2 < s.length - 1
      · have htl : (s.drop (s.length / 2 + 1)).length ≤ f := by
          simp [List.length_drop]
          omega
        have htn : s.drop (s.length / 2 + 1) ≠ [] := by
          rw [← List.length_pos, List.length_drop]
          omega
        obtain ⟨r, hr, hsound⟩ := ih (s.drop (s.length / 2 + 1)) v htl htn
        rcases r with _ | x
        · refine ⟨none, ?_, by simp⟩
          simp only [binaryF, hm, hc, if_pos h1, hr]
        · refine ⟨some (x + s.length / 2 + 1), ?_, ?_⟩
          · simp only [binaryF, hm, hc, if_pos h1, hr]
          · intro i hi
            cases hi
            have := hsound x rfl
            rw [List.getElem?_drop] at this
            rw [show s.length / 2 + 1 + x = x + s.length / 2 + 1 by omega] at this
            exact this
      · refine ⟨none, ?_, by simp⟩
        simp only [binaryF, hm, hc, if_neg h1]

/-- On a sorted non-empty slice, `binary` finds a present value. -/
theorem binaryF_finds : ∀ (f : Nat) (s : List Int) (v : Int), s.length ≤ f →
    s.Sorted (· ≤ ·) → v ∈ s → ∃ i, binaryF f s v = some (some i) := by
  intro f
  induction f with
  | zero =>
    intro s v hf hs hv
    rcases List.mem_iff_getElem.mp hv with ⟨j, hj, -⟩
    omega
  | succ f ih =>
    intro s v hf hs hv
    have hlen : 0 < s.length := by
      rcases List.mem_iff_getElem.mp hv with ⟨j, hj, -⟩
      omega
    have hmid : s.length / 2 < s.length := Nat.div_lt_self hlen (by omega)
    have hm : s[s.length / 2]? = some (s[s.length / 2]) := List.getElem?_eq_getElem hmid
    rcases hc : cmpInt v (s[s.length / 2]) with _ | _ | _
    · -- Less
      have hvlt : v < s[s.length / 2] := cmpInt_eq_lt.mp hc
      obtain ⟨j, hj, hjv⟩ := List.mem_iff_getElem.mp hv
      have hjmid : j < s.length / 2 := by
        by_contra hge
        exact absurd (hjv ▸ sorted_getElem_le hs (Nat.le_of_not_lt hge) hj) (by omega)
      have h0 : 0 < s.length / 2 := by omega
      have hmemt : v ∈ s.take (s.length / 2) := by
        rw [List.mem_iff_getElem]
        refine ⟨j, by simp [List.length_take]; omega, ?_⟩
        rw [List.getElem_take]
        exact hjv
      obtain ⟨i, hi⟩ := ih (s.take (s.length / 2)) v
        (by simp [List.length_take]; omega)
        (List.Pairwise.sublist (List.take_sublist _ _) hs) hmemt
      exact ⟨i, by simp only [binaryF, hm, hc, if_pos h0, hi]⟩
    · exact ⟨s.length / 2, by simp only [binaryF, hm, hc]⟩
    · -- Greater
      have hvgt : s[s.length / 2] < v := cmpInt_eq_gt.mp hc
      obtain ⟨j, hj, hjv⟩ := List.mem_iff_getElem.mp hv
      have hjmid : s.length / 2 < j := by
        by_contra hge
        exact absurd (hjv ▸ sorted_getElem_le hs (Nat.le_of_not_lt hge) hmid) (by omega)
      have h1 : s.length / 2 < s.length - 1 := by omega
      have hmemt : v ∈ s.drop (s.length / 2 + 1) := by
        rw [List.mem_iff_getElem?]
        refine ⟨j - (s.length / 2 + 1), ?_⟩
        rw [List.getElem?_drop, show s.length / 2 + 1 + (j - (s.length / 2 + 1)) = j by omega,
          List.getElem?_eq_getElem hj, hjv]
      obtain ⟨i, hi⟩ := ih (s.drop (s.length / 2 + 1)) v
        (by simp [List.length_drop]; omega)
        (List.Pairwise.sublist (List.drop_sublist _ _) hs) hmemt
      exact ⟨i + s.length / 2 + 1, by simp only [binaryF, hm, hc, if_pos h1, hi]⟩

/-! ## `binary_first` -/

/-- Characterisation of the backward scan: it returns one past the greatest
index holding an element `< v` (`0` when there is none), so everything from
the returned index on is `≥ v`. -/
theorem bfBack_spec (v : Int) : ∀ l : List Int,
    (bfBack v l = 0 ∨ ∃ a, l[bfBack v l - 1]? = some a ∧ a < v) ∧
    (∀ k, bfBack v l ≤ k → ∀ a, l[k]? = some a → v ≤ a) ∧
    bfBack v l ≤ l.length := by
  intro l
  induction l with
  | nil => simp [bfBack]
  | cons x t ih =>
    obtain ⟨ih1, ih2, ih3⟩ := ih
    by_cases hr : bfBack v t = 0
    · by_cases hx : x < v
      · have hb : bfBack v (x :: t) = 1 := by simp only [bfBack]; rw [hr]; simp [hx]
        rw [hb]
        refine ⟨Or.inr ⟨x, by simp, hx⟩, ?_, by simp⟩
        intro k hk a ha
        match k with
        | 0 => omega
        | k + 1 =>
          rw [List.getElem?_cons_succ] at ha
          exact ih2 k (by omega) a ha
      · have hb : bfBack v (x :: t) = 0 := by simp only [bfBack]; rw [hr]; simp [hx]
        rw [hb]
        refine ⟨Or.inl rfl, ?_, by simp⟩
        intro k hk a ha
        match k with
        | 0 =>
          rw [List.getElem?_cons_zero, Option.some_inj] at ha
          omega
        | k + 1 =>
          rw [List.getElem?_cons_succ] at ha
          exact ih2 k (by omega) a ha
    · have hb : bfBack v (x :: t) = bfBack v t + 1 := by simp only [bfBack]; simp [hr]
      rw [hb]
      rcases ih1 with h | ⟨a, ha, hav⟩
      · exact absurd h hr
      refine ⟨Or.inr ⟨a, ?_, hav⟩, ?_, by simp; omega⟩
      · rw [show bfBack v t + 1 - 1 = (bfBack v t - 1) + 1 by omega, List.getElem?_cons_succ]
        exact ha
      · intro k hk b hb2
        match k with
        | 0 => omega
        | k + 1 =>
          rw [List.getElem?_cons_succ] at hb2
          exact ih2 k (by omega) b hb2

/-- `binary_first` on a sorted non-empty slice: finds the first occurrence of
a present value, reports absence of a missing one. -/
theorem binary_firstI_spec (s : List Int) (v : Int) (hs : s.Sorted (· ≤ ·)) (hne : s ≠ []) :
    (v ∈ s → ∃ i, binary_firstI s v = some (some i) ∧ s[i]? = some v ∧
      ∀ j, j < i → s[j]? ≠ some v) ∧
    (v ∉ s → binary_firstI s v = some none) := by
  obtain ⟨r, hr, hsound⟩ := binaryF_sound s.length s v le_rfl hne
  constructor
  · intro hv
    obtain ⟨p, hp⟩ := binaryF_finds s.length s v le_rfl hs hv
    have hrp : r = some p := Option.some_inj.mp (hr.symm.trans hp)
    have hpv : s[p]? = some v := hsound p hrp
    have hplen : p < s.length := (List.getElem?_eq_some_iff.mp hpv).1
    set L := s.take p with hL
    have hLlen : L.length = p := by
      rw [hL, List.length_take]
      omega
    have hLk : ∀ k, k < p → L[k]? = s[k]? := by
      intro k hk
      rw [hL, List.getElem?_take]
      rw [if_pos hk]
    obtain ⟨hb1, hb2, hb3⟩ := bfBack_spec v L
    generalize hi : bfBack v L = i at hb1 hb2 hb3
    have hip : i ≤ p := hLlen ▸ hb3
    refine ⟨i, ?_, ?_, ?_⟩
    · simp only [binary_firstI, show binaryI s v = some (some p) from hp]
      rw [← hL, hi]
    · -- `s[i] = v`
      rcases Nat.eq_or_lt_of_le hip with rfl | hlt
      · exact hpv
      · have hil : i < s.length := by omega
        have hge : v ≤ s[i] := by
          refine hb2 i le_rfl _ ?_
          rw [hLk i hlt]
          exact List.getElem?_eq_getElem hil
        have hle : s[i] ≤ v := by
          have := sorted_getElem_le hs (Nat.le_of_lt hlt) hplen
          rw [(Option.some_inj.mp ((List.getElem?_eq_getElem hplen).symm.trans hpv))] at this
          exact this
        rw [List.getElem?_eq_getElem (by omega : i < s.length), Option.some_inj]
        omega
    · -- minimality
      intro j hj
      rcases hb1 with h0 | ⟨a, ha, hav⟩
      · omega
      · have hjlen : j < s.length := by omega
        have hia : L[i - 1]? = s[i - 1]? := hLk (i - 1) (by omega)
        rw [hia, List.getElem?_eq_getElem (by omega : i - 1 < s.length), Option.some_inj] at ha
        have : s[j] ≤ s[i - 1] := sorted_getElem_le hs (by omega) (by omega)
        rw [List.getElem?_eq_getElem hjlen]
        intro hEq
        have hjv := Option.some_inj.mp hEq
        omega
  · intro hv
    rcases r with _ | i
    · simp only [binary_firstI, show binaryI s v = some none from hr]
    · exact absurd (List.mem_iff_getElem?.mpr ⟨i, hsound i rfl⟩) hv

/-! ## `jump_step` / `jump` -/

/-- Verdict of the trailing linear scan of `jump_step`: if everything at
index `≤ pos` is `< v` and everything at index `≥ e` is `> v`, scanning
`slice[pos+1..e]` decides membership in the whole slice. -/
theorem linear_slice_verdict (s : List Int) (v : Int) (pos e : Nat)
    (hpe : pos + 1 ≤ e) (_he : e ≤ s.length)
    (hlow : ∀ j, j ≤ pos → ∀ a, s[j]? = some a → a < v)
    (hhigh : ∀ j, e ≤ j → ∀ a, s[j]? = some a → v < a) :
    (linearI (sliceL s (pos + 1) e) v).isSome = (if v ∈ s then true else false) := by
  have hmem : v ∈ sliceL s (pos + 1) e ↔ v ∈ s := by
    constructor
    · intro h
      exact List.mem_of_mem_drop (List.mem_of_mem_take h)
    · intro h
      obtain ⟨j, hj⟩ := List.mem_iff_getElem?.mp h
      have hjlen : j < s.length := (List.getElem?_eq_some_iff.mp hj).1
      have hjlow : pos + 1 ≤ j := by
        by_contra hc
        exact absurd (hlow j (by omega) v hj) (by omega)
      have hjhigh : j < e := by
        by_contra hc
        exact absurd (hhigh j (by omega) v hj) (by omega)
      rw [List.mem_iff_getElem?]
      refine ⟨j - (pos + 1), ?_⟩
      rw [sliceL, List.getElem?_take, if_pos (by omega), List.getElem?_drop,
        show pos + 1 + (j - (pos + 1)) = j by omega]
      exact hj
  by_cases h : v ∈ s
  · rw [if_pos h]
    exact linearI_isSome_iff.mpr (hmem.mpr h)
  · rw [if_neg h]
    rw [← Bool.not_eq_true]
    intro hc
    exact h (hmem.mp (linearI_isSome_iff.mp hc))

/-- Invariant-carrying run of the jump loop on a sorted slice with
`2 ≤ step ≤ length`: the loop never panics, an in-loop `return` is
verdict-correct, and a fall-through hands the trailing linear scan a block
start element known to be `< v` (plus, when the loop stopped on an
overshoot, an overshoot element `> v` one step later). -/
theorem jumpLoop_spec (s : List Int) (v : Int) (step : Nat) (hs : s.Sorted (· ≤ ·))
    (hstep : 2 ≤ step) (hsl : step ≤ s.length) :
    ∀ k i pos, k + i = s.length / step →
    (i = 0 ∧ pos = 0 ∨
      (1 ≤ i ∧ pos = (i - 1) * step ∧ ∃ a, s[pos]? = some a ∧ a < v)) →
    ∃ out, jumpLoop s v step k i pos = some out ∧
      (∀ r, out = .inl r → r.isSome = (if v ∈ s then true else false)) ∧
      (∀ pos2 found, out = .inr (pos2, found) →
        (∃ a, s[pos2]? = some a ∧ a < v) ∧
        (found = true → pos2 + step ≤ s.length ∧
          ∃ b, s[pos2 + step]? = some b ∧ v < b)) := by
  have hlen : 0 < s.length := by omega
  have hm1 : 1 ≤ s.length / step := (Nat.one_le_div_iff (by omega)).mpr hsl
  intro k
  induction k with
  | zero =>
    intro i pos hki hinv
    refine ⟨.inr (pos, false), by simp [jumpLoop], by simp, ?_⟩
    intro pos2 found h
    cases h
    rcases hinv with ⟨hi, -⟩ | ⟨hi, hpos, ha⟩
    · omega
    · exact ⟨ha, by simp⟩
  | succ k ih =>
    intro i pos hki hinv
    -- the loop reads `s[i * step]`, which is in bounds: `i < len/step`
    have him : i < s.length / step := by omega
    have hread : i * step < s.length := by
      have h1 : (i + 1) * step ≤ (s.length / step) * step := Nat.mul_le_mul_right _ (by omega)
      have h2 : (s.length / step) * step ≤ s.length := Nat.div_mul_le_self _ _
      have h3 : i * step + step = (i + 1) * step := by ring
      omega
    have ha : s[i * step]? = some (s[i * step]) := List.getElem?_eq_getElem hread
    rcases hc : cmpInt v (s[i * step]) with _ | _ | _
    · -- Less: return `None` when `i = 0`, else break with `found = true`
      have hvlt : v < s[i * step] := cmpInt_eq_lt.mp hc
      by_cases hi0 : i = 0
      · subst hi0
        simp only [Nat.zero_mul] at ha hc
        refine ⟨.inl none, by simp [jumpLoop, ha, hc], ?_, by simp⟩
        intro r hr
        cases hr
        -- `v` is smaller than `s[0]`, hence than every element
        simp only [Option.isSome_none]
        have : v ∉ s := by
          intro hmem
          obtain ⟨j, hj, hjv⟩ := List.mem_iff_getElem.mp hmem
          have := sorted_getElem_le hs (Nat.zero_le j) hj
          simp at this hvlt
          omega
        rw [if_neg this]
      · refine ⟨.inr (pos, true), by simp [jumpLoop, ha, hc, hi0], by simp, ?_⟩
        intro pos2 found h
        cases h
        rcases hinv with ⟨hi, -⟩ | ⟨-, hpos, hinva⟩
        · omega
        · refine ⟨hinva, ?_⟩
          intro _
          have hps : pos + step = i * step := by
            rw [hpos, Nat.sub_one_mul]
            have h1i : 1 ≤ i := by omega
            have := Nat.mul_le_mul_right step h1i
            omega
          refine ⟨by omega, ?_⟩
          rw [hps]
          exact ⟨_, ha, hvlt⟩
    · -- Equal: return the jump index
      refine ⟨.inl (some (i * step)), by simp only [jumpLoop, ha, hc], ?_, by simp⟩
      intro r hr
      cases hr
      have : v ∈ s := by
        rw [List.mem_iff_getElem?]
        exact ⟨i * step, by rw [ha, Option.some_inj, cmpInt_eq_eq.mp hc]⟩
      rw [if_pos this]
      simp
    · -- Greater: keep jumping
      have hvgt : s[i * step] < v := cmpInt_eq_gt.mp hc
      have hile : ¬ s.length ≤ i := by
        have : i < s.length / step := him
        have h2 : s.length / step ≤ s.length := Nat.div_le_self _ _
        omega
      have hnth : (i + 1) * step ≤ s.length := by
        have h1 : (i + 1) * step ≤ (s.length / step) * step := Nat.mul_le_mul_right _ (by omega)
        have h2 : (s.length / step) * step ≤ s.length := Nat.div_mul_le_self _ _
        omega
      obtain ⟨out, hout, hinl, hinr⟩ := ih (i + 1) (i * step) (by omega)
        (Or.inr ⟨by omega, by simp, ⟨_, ha, hvgt⟩⟩)
      refine ⟨out, ?_, hinl, hinr⟩
      simp only [jumpLoop, ha, hc, if_neg hile, if_pos hnth]
      exact hout

/-- `Option.map` does not change definedness. -/
theorem isSome_map_nat (o : Option Nat) (f : Nat → Nat) : (o.map f).isSome = o.isSome := by
  cases o <;> rfl

/-- `jump_step` on a sorted slice with `2 ≤ step ≤ length` returns normally
and agrees with membership. -/
theorem jump_stepI_verdict (s : List Int) (v : Int) (step : Nat) (hs : s.Sorted (· ≤ ·))
    (h2 : 2 ≤ step) (hsl : step ≤ s.length) :
    ∃ r, jump_stepI s v step = some r ∧ r.isSome = (if v ∈ s then true else false) := by
  have hm1 : 1 ≤ s.length / step := (Nat.one_le_div_iff (by omega)).mpr hsl
  obtain ⟨out, hout, hinl, hinr⟩ :=
    jumpLoop_spec s v step hs h2 hsl (s.length / step) 0 0 (by omega) (Or.inl ⟨rfl, rfl⟩)
  have hne1 : step ≠ 1 := by omega
  have hne0 : step ≠ 0 := by omega
  rcases out with r | ⟨pos2, found⟩
  · refine ⟨r, ?_, hinl r rfl⟩
    simp only [jump_stepI, if_neg hne1, if_neg hne0, hout]
  · obtain ⟨⟨a, hpa, hav⟩, hfound⟩ := hinr pos2 found rfl
    have hposlen : pos2 < s.length := (List.getElem?_eq_some_iff.mp hpa).1
    have hlow : ∀ j, j ≤ pos2 → ∀ c, s[j]? = some c → c < v := by
      intro j hj c hc
      have hjlen : j < s.length := (List.getElem?_eq_some_iff.mp hc).1
      have hle := sorted_getElem_le hs hj hposlen
      rw [List.getElem?_eq_getElem hjlen, Option.some_inj] at hc
      rw [List.getElem?_eq_getElem hposlen, Option.some_inj] at hpa
      omega
    rcases found with _ | _
    · -- `found = false`: scan to the end of the slice
      refine ⟨(linearI (sliceL s (pos2 + 1) s.length) v).map (· + pos2 + 1), ?_, ?_⟩
      · simp only [jump_stepI, if_neg hne1, if_neg hne0, hout, Bool.false_eq_true, if_neg,
          ite_false]
        rw [if_pos ⟨by omega, le_rfl⟩]
      · rw [isSome_map_nat]
        refine (linear_slice_verdict s v pos2 s.length (by omega) le_rfl hlow ?_)
        intro j hj c hc
        have hjlen : j < s.length := (List.getElem?_eq_some_iff.mp hc).1
        omega
    · -- `found = true`: scan to the overshoot point
      obtain ⟨hps, b, hpb, hvb⟩ := hfound rfl
      refine ⟨(linearI (sliceL s (pos2 + 1) (pos2 + step)) v).map (· + pos2 + 1), ?_, ?_⟩
      · simp only [jump_stepI, if_neg hne1, if_neg hne0, hout, if_true, ite_true]
        rw [if_pos ⟨by omega, hps⟩]
      · rw [isSome_map_nat]
        refine (linear_slice_verdict s v pos2 (pos2 + step) (by omega) hps hlow ?_)
        intro j hj c hc
        have hjlen : j < s.length := (List.getElem?_eq_some_iff.mp hc).1
        have hpblen : pos2 + step < s.length := (List.getElem?_eq_some_iff.mp hpb).1
        have hle := sorted_getElem_le hs hj hjlen
        have hle2 := sorted_getElem_le hs hj hjlen
        -- `s[pos2+step] = b ≤ s[j] = c` and `v < b`
        have hmono := sorted_getElem_le hs hj hjlen
        rw [List.getElem?_eq_getElem hpblen, Option.some_inj] at hpb
        rw [List.getElem?_eq_getElem hjlen, Option.some_inj] at hc
        have := sorted_getElem_le hs hj hjlen
        have hba : s[pos2 + step] ≤ s[j] := sorted_getElem_le hs hj hjlen
        omega

/-- The `(linearI s v).isSome` verdict written through the membership
test. -/
theorem linearI_isSome_eq_mem (s : List Int) (v : Int) :
    (linearI s v).isSome = (if v ∈ s then true else false) := by
  by_cases h : v ∈ s
  · rw [if_pos h]
    exact linearI_isSome_iff.mpr h
  · rw [if_neg h, ← Bool.not_eq_true]
    intro hc
    exact h (linearI_isSome_iff.mp hc)

/-- `jump` on a sorted non-empty slice returns normally and its
presence/absence verdict is `linear`'s. -/
theorem jumpI_verdict (s : List Int) (v : Int) (hs : s.Sorted (· ≤ ·)) (hne : s ≠ []) :
    ∃ r, jumpI s v = some r ∧ r.isSome = (linearI s v).isSome := by
  have hlen : 0 < s.length := List.length_pos.mpr hne
  rcases hsq : Nat.sqrt s.length with _ | n
  · exact absurd (Nat.sqrt_pos.mpr hlen) (by omega)
  · rcases n with _ | k
    · -- `step = 1`: delegates to `linear`
      refine ⟨linearI s v, ?_, rfl⟩
      rw [jumpI, hsq, jump_stepI, if_pos rfl]
    · -- `step ≥ 2`
      have h2 : 2 ≤ Nat.sqrt s.length := by omega
      have hsl : Nat.sqrt s.length ≤ s.length := Nat.sqrt_le_self _
      obtain ⟨r, hr, hv⟩ := jump_stepI_verdict s v (Nat.sqrt s.length) hs h2 hsl
      exact ⟨r, hr, by rw [hv, linearI_isSome_eq_mem]⟩

/-- With `step` greater than the length (and `≥ 2`), the jump loop body never
runs and the trailing scan covers `slice[1..len]` only: index `0` is never
examined. -/
theorem jump_stepI_big_step (s : List Int) (v : Int) (step : Nat) (hne : s ≠ [])
    (h2 : 2 ≤ step) (hbig : s.length < step) :
    jump_stepI s v step = some ((linearI (s.drop 1) v).map (· + 1)) := by
  have hm0 : s.length / step = 0 := Nat.div_eq_of_lt hbig
  have hlen : 0 < s.length := List.length_pos.mpr hne
  have hne1 : step ≠ 1 := by omega
  have hne0 : step ≠ 0 := by omega
  have hsl : sliceL s 1 s.length = s.drop 1 := by
    rw [sliceL]
    apply List.take_of_length_le
    rw [List.length_drop]
  simp only [jump_stepI, if_neg hne1, if_neg hne0, hm0, jumpLoop, Bool.false_eq_true,
    ite_false]
  rw [if_pos ⟨by omega, le_rfl⟩, hsl]

/-! ## `bubble` -/

/-- A bubble pass permutes the list. -/
theorem passAux_perm (cmp : α → α → Ordering) :
    ∀ (f : Nat) (l : List α), (passAux cmp f l).1.Perm l := by
  intro f
  induction f with
  | zero => intro l; rcases l with _ | ⟨a, _ | ⟨b, t⟩⟩ <;> simp [passAux]
  | succ f ih =>
    intro l
    rcases l with _ | ⟨a, _ | ⟨b, t⟩⟩
    · simp [passAux]
    · simp [passAux]
    · simp only [passAux]
      split
      · refine ((ih (a :: t)).cons b).trans ?_
        exact List.Perm.swap a b t
      · exact (ih (b :: t)).cons a

/-- A bubble pass preserves the length. -/
theorem passAux_length (cmp : α → α → Ordering) (f : Nat) (l : List α) :
    (passAux cmp f l).1.length = l.length :=
  (passAux_perm cmp f l).length_eq

/-- The last-swap index reported by a pass is at most the number of
comparisons. -/
theorem passAux_snd_le (cmp : α → α → Ordering) :
    ∀ (f : Nat) (l : List α), (passAux cmp f l).2 ≤ f := by
  intro f
  induction f with
  | zero => intro l; rcases l with _ | ⟨a, _ | ⟨b, t⟩⟩ <;> simp [passAux]
  | succ f ih =>
    intro l
    rcases l with _ | ⟨a, _ | ⟨b, t⟩⟩
    · simp [passAux]
    · simp [passAux]
    · simp only [passAux]
      split
      · have := ih (a :: t)
        split <;> omega
      · have := ih (b :: t)
        split <;> omega

/-- The last-swap index is zero or a valid index. -/
theorem passAux_snd_lt (cmp : α → α → Ordering) :
    ∀ (f : Nat) (l : List α), (passAux cmp f l).2 = 0 ∨ (passAux cmp f l).2 < l.length := by
  intro f
  induction f with
  | zero => intro l; rcases l with _ | ⟨a, _ | ⟨b, t⟩⟩ <;> simp [passAux]
  | succ f ih =>
    intro l
    rcases l with _ | ⟨a, _ | ⟨b, t⟩⟩
    · simp [passAux]
    · simp [passAux]
    · simp only [passAux]
      split
      · rcases ih (a :: t) with h | h
        · simp [h]
        · split
          · simp
          · right
            simp at h ⊢
            omega
      · rcases ih (b :: t) with h | h
        · simp [h]
        · split
          · simp
          · right
            simp at h ⊢
            omega

/-- A pass reporting no swap returns its input unchanged. -/
theorem passAux_snd_zero (cmp : α → α → Ordering) :
    ∀ (f : Nat) (l : List α), (passAux cmp f l).2 = 0 → (passAux cmp f l).1 = l := by
  intro f
  induction f with
  | zero => intro l; rcases l with _ | ⟨a, _ | ⟨b, t⟩⟩ <;> simp [passAux]
  | succ f ih =>
    intro l
    rcases l with _ | ⟨a, _ | ⟨b, t⟩⟩
    · simp [passAux]
    · simp [passAux]
    · simp only [passAux]
      split
      · split <;> simp_all
      · split
        · rename_i hr
          intro _
          rw [ih (b :: t) hr]
        · simp_all

/-- Positions beyond the compared window are untouched by a pass. -/
theorem passAux_drop (cmp : α → α → Ordering) :
    ∀ (f : Nat) (l : List α), (passAux cmp f l).1.drop (f + 1) = l.drop (f + 1) := by
  intro f
  induction f with
  | zero => intro l; rcases l with _ | ⟨a, _ | ⟨b, t⟩⟩ <;> simp [passAux]
  | succ f ih =>
    intro l
    rcases l with _ | ⟨a, _ | ⟨b, t⟩⟩
    · simp [passAux]
    · simp [passAux]
    · simp only [passAux]
      split
      · have := ih (a :: t)
        simp only [List.drop_succ_cons] at this ⊢
        rw [this]
      · have := ih (b :: t)
        simp only [List.drop_succ_cons] at this ⊢
        rw [this]

/-- The compared window of a pass is a permutation of the input's window. -/
theorem passAux_take_perm (cmp : α → α → Ordering) (f : Nat) (l : List α) :
    ((passAux cmp f l).1.take (f + 1)).Perm (l.take (f + 1)) := by
  have hperm := passAux_perm cmp f l
  have hdrop := passAux_drop cmp f l
  have h1 := List.take_append_drop (f + 1) (passAux cmp f l).1
  have h2 := List.take_append_drop (f + 1) l
  have hperm2 : ((passAux cmp f l).1.take (f + 1) ++ (passAux cmp f l).1.drop (f + 1)).Perm
      (l.take (f + 1) ++ l.drop (f + 1)) := by
    rw [h1, h2]
    exact hperm
  rw [hdrop] at hperm2
  exact (List.perm_append_right_iff _).mp hperm2
/-- The prefix of a pass up to (and including) the last swap position is a
permutation of the corresponding input prefix. -/
theorem passAux_take_snd_perm (cmp : α → α → Ordering) :
    ∀ (f : Nat) (l : List α),
      ((passAux cmp f l).1.take ((passAux cmp f l).2 + 1)).Perm
        (l.take ((passAux cmp f l).2 + 1)) := by
  intro f
  induction f with
  | zero => intro l; rcases l with _ | ⟨a, _ | ⟨b, t⟩⟩ <;> simp [passAux]
  | succ f ih =>
    intro l
    rcases l with _ | ⟨a, _ | ⟨b, t⟩⟩
    · simp [passAux]
    · simp [passAux]
    · simp only [passAux]
      split
      · by_cases hr2 : (passAux cmp f (a :: t)).2 = 0
        · rw [passAux_snd_zero cmp f (a :: t) hr2]
          simp [hr2]
          exact List.Perm.swap a b []
        · have ihp := ih (a :: t)
          simp only [if_neg hr2]
          simp only [List.take_succ_cons] at ihp ⊢
          refine (ihp.cons b).trans ?_
          exact List.Perm.swap a b _
      · by_cases hr2 : (passAux cmp f (b :: t)).2 = 0
        · simp [hr2]
        · have ihp := ih (b :: t)
          simp only [if_neg hr2]
          simp only [List.take_succ_cons] at ihp ⊢
          exact ihp.cons a

/-- An element read by `getElem?` below `m` is in `take m`. -/
theorem mem_take_of_getElem? {s : List Int} {k m : Nat} {x : Int}
    (hk : k < m) (h : s[k]? = some x) : x ∈ s.take m := by
  rw [List.mem_iff_getElem?]
  exact ⟨k, by rw [List.getElem?_take, if_pos hk]; exact h⟩

/-- Membership in `take m` is witnessed by an index below `m`. -/
theorem exists_getElem?_of_mem_take {s : List Int} {m : Nat} {x : Int}
    (h : x ∈ s.take m) : ∃ k, k < m ∧ s[k]? = some x := by
  obtain ⟨k, hk⟩ := List.mem_iff_getElem?.mp h
  rw [List.getElem?_take] at hk
  by_cases hkm : k < m
  · rw [if_pos hkm] at hk
    exact ⟨k, hkm, hk⟩
  · rw [if_neg hkm] at hk
    cases hk

/-- Everything in the input prefix up to the last swap is bounded by the
element at the last-swap position (the carried maximum). -/
theorem passAux_max : ∀ (f : Nat) (l : List Int) (mx : Int),
    (passAux cmpInt f l).1[(passAux cmpInt f l).2]? = some mx →
    ∀ x ∈ l.take ((passAux cmpInt f l).2 + 1), x ≤ mx := by
  intro f
  induction f with
  | zero =>
    intro l mx h x hx
    rcases l with _ | ⟨a, _ | ⟨b, t⟩⟩ <;> simp [passAux] at h hx <;> omega
  | succ f ih =>
    intro l mx h x hx
    rcases l with _ | ⟨a, _ | ⟨b, t⟩⟩
    · simp [passAux] at h
    · simp [passAux] at h hx
      omega
    · simp only [passAux] at h hx
      by_cases hab : cmpInt a b = .gt
      · have hba : b < a := cmpInt_eq_gt.mp hab
        rw [if_pos hab] at h hx
        by_cases hr2 : (passAux cmpInt f (a :: t)).2 = 0
        · rw [passAux_snd_zero cmpInt f (a :: t) hr2] at h
          simp [hr2] at h hx
          rcases hx with rfl | rfl <;> omega
        · simp only [if_neg hr2] at h hx
          have hmx : (passAux cmpInt f (a :: t)).1[(passAux cmpInt f (a :: t)).2]? = some mx := by
            rw [List.getElem?_cons_succ] at h
            exact h
          have ihm := ih (a :: t) mx hmx
          simp only [List.take_succ_cons, List.mem_cons] at hx ihm
          rcases hx with rfl | rfl | hx
          · exact ihm x (by simp)
          · have := ihm a (by simp)
            omega
          · exact ihm x (by simp [hx])
      · have hle : a ≤ b := cmpInt_ne_gt.mp hab
        rw [if_neg hab] at h hx
        by_cases hr2 : (passAux cmpInt f (b :: t)).2 = 0
        · simp [hr2] at h hx
          omega
        · simp only [if_neg hr2] at h hx
          have hmx : (passAux cmpInt f (b :: t)).1[(passAux cmpInt f (b :: t)).2]? = some mx := by
            rw [← h, List.getElem?_cons_succ]
          have ihm := ih (b :: t) mx hmx
          simp only [List.take_succ_cons, List.mem_cons] at hx ihm
          rcases hx with rfl | rfl | hx
          · have := ihm b (by simp)
            omega
          · exact ihm x (by simp)
          · exact ihm x (by simp [hx])

/-- After a pass, positions from the last swap up to the compared window are
pairwise in order. -/
theorem passAux_window : ∀ (f : Nat) (l : List Int) (j : Nat) (x y : Int),
    (passAux cmpInt f l).2 ≤ j → j + 1 ≤ f →
    (passAux cmpInt f l).1[j]? = some x → (passAux cmpInt f l).1[j + 1]? = some y →
    x ≤ y := by
  intro f
  induction f with
  | zero =>
    intro l j x y hj hjf hx hy
    omega
  | succ f ih =>
    intro l j x y hj hjf hx hy
    rcases l with _ | ⟨a, _ | ⟨b, t⟩⟩
    · simp [passAux] at hx
    · simp [passAux] at hx hy
    · simp only [passAux] at hj hx hy
      by_cases hab : cmpInt a b = .gt
      · have hba : b < a := cmpInt_eq_gt.mp hab
        rw [if_pos hab] at hj hx hy
        have hj1 : 1 ≤ j := by
          split at hj <;> omega
        obtain ⟨j', rfl⟩ : ∃ j', j = j' + 1 := ⟨j - 1, by omega⟩
        rw [List.getElem?_cons_succ] at hx hy
        refine ih (a :: t) j' x y ?_ (by omega) hx hy
        split at hj <;> omega
      · have hle : a ≤ b := cmpInt_ne_gt.mp hab
        rw [if_neg hab] at hj hx hy
        match j with
        | 0 =>
          rw [List.getElem?_cons_zero, Option.some_inj] at hx
          rw [List.getElem?_cons_succ] at hy
          have hr0 : (passAux cmpInt f (b :: t)).2 = 0 := by
            split at hj <;> omega
          rw [passAux_snd_zero cmpInt f (b :: t) hr0, List.getElem?_cons_zero,
            Option.some_inj] at hy
          omega
        | j + 1 =>
          rw [List.getElem?_cons_succ] at hx hy
          refine ih (b :: t) j x y ?_ (by omega) hx hy
          split at hj <;> omega

/-- Adjacent order extends transitively along a window. -/
theorem window_trans (s : List Int) (lo hi : Nat)
    (h : ∀ j x y, lo ≤ j → j + 1 ≤ hi → s[j]? = some x → s[j + 1]? = some y → x ≤ y) :
    ∀ w u x y, lo ≤ u → u ≤ w → w ≤ hi → s[u]? = some x → s[w]? = some y → x ≤ y := by
  intro w
  induction w with
  | zero =>
    intro u x y hlu huw hwh hx hy
    obtain rfl : u = 0 := by omega
    rw [hx, Option.some_inj] at hy
    omega
  | succ w ihw =>
    intro u x y hlu huw hwh hx hy
    rcases Nat.eq_or_lt_of_le huw with rfl | hlt
    · rw [hx, Option.some_inj] at hy
      omega
    · have hw1 : w + 1 < s.length := (List.getElem?_eq_some_iff.mp hy).1
      have hwlen : w < s.length := by omega
      have hyw : s[w]? = some (s[w]) := List.getElem?_eq_getElem hwlen
      have h1 : x ≤ s[w] := ihw u x _ hlu (by omega) (by omega) hx hyw
      have h2 : s[w] ≤ y := h w _ y (by omega) (by omega) hyw hy
      omega

/-- A list whose adjacent pairs are ordered is sorted. -/
theorem sorted_of_adjacent (s : List Int)
    (h : ∀ j x y, s[j]? = some x → s[j + 1]? = some y → x ≤ y) :
    s.Sorted (· ≤ ·) := by
  rw [List.Sorted, List.pairwise_iff_getElem]
  intro i j hi hj hij
  exact window_trans s 0 s.length (fun j x y _ _ hx hy => h j x y hx hy) j i _ _
    (by omega) (by omega) (by omega)
    (List.getElem?_eq_getElem hi) (List.getElem?_eq_getElem hj)

/-- `getElem?` past the pass window is unchanged. -/
theorem passAux_getElem?_high (cmp : α → α → Ordering) (f : Nat) (l : List α) (j : Nat)
    (hj : f + 1 ≤ j) : (passAux cmp f l).1[j]? = l[j]? := by
  have hd := passAux_drop cmp f l
  have h1 : (passAux cmp f l).1[j]? = ((passAux cmp f l).1.drop (f + 1))[j - (f + 1)]? := by
    rw [List.getElem?_drop]
    congr 1
    omega
  have h2 : l[j]? = (l.drop (f + 1))[j - (f + 1)]? := by
    rw [List.getElem?_drop]
    congr 1
    omega
  rw [h1, h2, hd]

/-- The outer bubble loop: given the suffix invariants, the loop returns a
sorted permutation. -/
theorem bubbleLoop_spec : ∀ (f n : Nat) (s : List Int), n ≤ f → n ≤ s.length →
    (∀ j x y, n ≤ j + 1 → s[j]? = some x → s[j + 1]? = some y → x ≤ y) →
    (∀ k j x y, k < n → n ≤ j → s[k]? = some x → s[j]? = some y → x ≤ y) →
    (bubbleLoop cmpInt f n s).Perm s ∧ (bubbleLoop cmpInt f n s).Sorted (· ≤ ·) := by
  intro f
  induction f with
  | zero =>
    intro n s hnf hns ha hb
    refine ⟨by simp [bubbleLoop], sorted_of_adjacent _ ?_⟩
    intro j x y hx hy
    exact ha j x y (by omega) hx hy
  | succ f ih =>
    intro n s hnf hns ha hb
    by_cases h1n : 1 < n
    · have hlen2 : 2 ≤ s.length := by omega
      set R := (passAux cmpInt (n - 1) s).1 with hR
      set w := (passAux cmpInt (n - 1) s).2 with hw
      have hperm : R.Perm s := passAux_perm cmpInt (n - 1) s
      have hRlen : R.length = s.length := hperm.length_eq
      have hwle : w ≤ n - 1 := passAux_snd_le cmpInt (n - 1) s
      have hwlt : w = 0 ∨ w < s.length := passAux_snd_lt cmpInt (n - 1) s
      -- transfer of the `take n` window
      have htake : (R.take n).Perm (s.take n) := by
        have := passAux_take_perm cmpInt (n - 1) s
        rw [show n - 1 + 1 = n from by omega] at this
        exact this
      have htakew : (R.take (w + 1)).Perm (s.take (w + 1)) := passAux_take_snd_perm cmpInt (n - 1) s
      -- boundary fact: any element of the first `n` positions of `R` is at
      -- most any element of a position `≥ n`
      have hbound : ∀ k j x y, k < n → n ≤ j → R[k]? = some x → R[j]? = some y → x ≤ y := by
        intro k j x y hkn hnj hx hy
        have hyR : R[j]? = s[j]? := passAux_getElem?_high cmpInt (n - 1) s j (by omega)
        have hxk : x ∈ R.take n := mem_take_of_getElem? hkn hx
        obtain ⟨k', hk', hxk'⟩ := exists_getElem?_of_mem_take (htake.mem_iff.mp hxk)
        exact hb k' j x y hk' hnj hxk' (hyR ▸ hy)
      -- the carried maximum at position `w` (when `w ≥ 1`)
      have hmax : ∀ mx, R[w]? = some mx → ∀ k x, k < w + 1 → R[k]? = some x → x ≤ mx := by
        intro mx hmx k x hk hx
        have hxk : x ∈ R.take (w + 1) := mem_take_of_getElem? hk hx
        exact passAux_max (n - 1) s mx hmx x (htakew.mem_iff.mp hxk)
      -- new adjacent invariant for the recursive call
      have ha' : ∀ j x y, w ≤ j + 1 → R[j]? = some x → R[j + 1]? = some y → x ≤ y := by
        intro j x y hwj hx hy
        by_cases hjn : j + 1 ≤ n - 1
        · by_cases hwj2 : w ≤ j
          · exact passAux_window (n - 1) s j x y hwj2 hjn hx hy
          · -- `j + 1 = w`
            have hjw : j + 1 = w := by omega
            exact hmax y (hjw ▸ hy) j x (by omega) hx
        · by_cases hjn2 : n ≤ j
          · have hxR : R[j]? = s[j]? := passAux_getElem?_high cmpInt (n - 1) s j (by omega)
            have hyR : R[j + 1]? = s[j + 1]? := passAux_getElem?_high cmpInt (n - 1) s (j + 1)
              (by omega)
            exact ha j x y (by omega) (hxR ▸ hx) (hyR ▸ hy)
          · -- `j = n - 1`: boundary pair
            obtain rfl : j = n - 1 := by omega
            exact hbound (n - 1) (n - 1 + 1) x y (by omega) (by omega) hx hy
      -- new prefix/suffix invariant for the recursive call
      have hb' : ∀ k j x y, k < w → w ≤ j → R[k]? = some x → R[j]? = some y → x ≤ y := by
        intro k j x y hkw hwj hx hy
        have hwlen : w < s.length := by
          rcases hwlt with h | h
          · omega
          · exact h
        have hmxe : R[w]? = some (R[w]) :=
          List.getElem?_eq_getElem _
        have hxmx : x ≤ R[w] := hmax _ hmxe k x (by omega) hx
        by_cases hjn : j ≤ n - 1
        · have : R[w] ≤ y :=
            window_trans R w (n - 1) (fun j' x' y' hj1 hj2 hx' hy' =>
              passAux_window (n - 1) s j' x' y' hj1 hj2 hx' hy') j w _ y le_rfl hwj hjn hmxe hy
          omega
        · -- `j ≥ n`
          have hn1len : n - 1 < s.length := by omega
          have hmn : R[n - 1]? = some (R[n - 1]) :=
            List.getElem?_eq_getElem _
          have h2 : R[w] ≤ R[n - 1] :=
            window_trans R w (n - 1) (fun j' x' y' hj1 hj2 hx' hy' =>
              passAux_window (n - 1) s j' x' y' hj1 hj2 hx' hy') (n - 1) w _ _ le_rfl hwle
              le_rfl hmxe hmn
          have h3 : R[n - 1] ≤ y :=
            hbound (n - 1) j _ y (by omega) (by omega) hmn hy
          omega
      have hrec := ih w R (by omega) (by omega) ha' hb'
      have hunf : bubbleLoop cmpInt (f + 1) n s = bubbleLoop cmpInt f w R := by
        simp only [bubbleLoop, if_pos h1n]
      rw [hunf]
      exact ⟨hrec.1.trans hperm, hrec.2⟩
    · have hunf : bubbleLoop cmpInt (f + 1) n s = s := by
        simp only [bubbleLoop, if_neg h1n]
      rw [hunf]
      refine ⟨List.Perm.refl s, sorted_of_adjacent _ ?_⟩
      intro j x y hx hy
      exact ha j x y (by omega) hx hy

/-- `bubble` sorts and permutes. -/
theorem bubbleI_spec (s : List Int) : (bubbleI s).Perm s ∧ (bubbleI s).Sorted (· ≤ ·) := by
  refine bubbleLoop_spec s.length s.length s le_rfl le_rfl ?_ ?_
  · intro j x y hj hx hy
    have : j + 1 < s.length := (List.getElem?_eq_some_iff.mp hy).1
    omega
  · intro k j x y hk hj hx hy
    have : j < s.length := (List.getElem?_eq_some_iff.mp hy).1
    omega

/-! ## `merge` -/

/-- When the merge loop returns normally its result permutes the
concatenation of its inputs (over `Int`, where the `Equal` branch's double
write of the left element coincides with writing both elements). -/
theorem mergeLoop_perm : ∀ (m : Bool) (l r t : List Int),
    mergeLoopG cmpInt m l r = some t → t.Perm (l ++ r)
  | m, [], r, t => by
    intro h
    simp only [mergeLoopG, Option.some.injEq] at h
    subst h
    simp
  | m, a :: l, [], t => by
    intro h
    cases m
    · simp only [mergeLoopG, Bool.false_eq_true, if_false, Option.some.injEq] at h
      subst h
      simp
    · simp only [mergeLoopG, if_true] at h
      exact absurd h (by simp)
  | m, a :: l, b :: r, t => by
    intro h
    rcases hc : cmpInt a b with _ | _ | _
    · simp only [mergeLoopG, hc] at h
      rw [Option.map_eq_some'] at h
      obtain ⟨t', ht', rfl⟩ := h
      exact (mergeLoop_perm m l (b :: r) t' ht').cons a
    · have hab : a = b := cmpInt_eq_eq.mp hc
      subst hab
      simp only [mergeLoopG, hc] at h
      rw [Option.map_eq_some'] at h
      obtain ⟨t', ht', rfl⟩ := h
      refine ((mergeLoop_perm m l r t' ht').cons a).cons a |>.trans ?_
      exact (List.perm_middle.symm.cons a)
    · simp only [mergeLoopG, hc] at h
      rw [Option.map_eq_some'] at h
      obtain ⟨t', ht', rfl⟩ := h
      refine ((mergeLoop_perm m (a :: l) r t' ht').cons b).trans ?_
      exact List.perm_middle.symm
  termination_by m l r t => l.length + r.length

/-- When the merge loop of two sorted lists returns normally its result is
sorted. -/
theorem mergeLoop_sorted : ∀ (m : Bool) (l r t : List Int), l.Sorted (· ≤ ·) →
    r.Sorted (· ≤ ·) → mergeLoopG cmpInt m l r = some t → t.Sorted (· ≤ ·)
  | m, [], r, t, _, hr => by
    intro h
    simp only [mergeLoopG, Option.some.injEq] at h
    subst h
    exact hr
  | m, a :: l, [], t, hl, _ => by
    intro h
    cases m
    · simp only [mergeLoopG, Bool.false_eq_true, if_false, Option.some.injEq] at h
      subst h
      exact hl
    · simp only [mergeLoopG, if_true] at h
      exact absurd h (by simp)
  | m, a :: l, b :: r, t, hl, hr => by
    intro h
    obtain ⟨hal, hl'⟩ := List.sorted_cons.mp hl
    obtain ⟨hbr, hr'⟩ := List.sorted_cons.mp hr
    rcases hc : cmpInt a b with _ | _ | _
    · have hab : a < b := cmpInt_eq_lt.mp hc
      simp only [mergeLoopG, hc] at h
      rw [Option.map_eq_some'] at h
      obtain ⟨t', ht', rfl⟩ := h
      refine List.sorted_cons.mpr ⟨?_, mergeLoop_sorted m l (b :: r) t' hl' hr ht'⟩
      intro x hx
      rcases (mergeLoop_perm m l (b :: r) t' ht').mem_iff.mp hx with hx2
      rcases List.mem_append.mp hx2 with h | h
      · exact hal x h
      · rcases List.mem_cons.mp h with rfl | h
        · omega
        · have := hbr x h
          omega
    · have hab : a = b := cmpInt_eq_eq.mp hc
      subst hab
      simp only [mergeLoopG, hc] at h
      rw [Option.map_eq_some'] at h
      obtain ⟨t', ht', rfl⟩ := h
      have hms := mergeLoop_sorted m l r t' hl' hr' ht'
      have hbnd : ∀ x ∈ t', a ≤ x := by
        intro x hx
        rcases List.mem_append.mp ((mergeLoop_perm m l r t' ht').mem_iff.mp hx) with
          h | h
        · exact hal x h
        · exact hbr x h
      refine List.sorted_cons.mpr ⟨?_, List.sorted_cons.mpr ⟨hbnd, hms⟩⟩
      intro x hx
      rcases List.mem_cons.mp hx with rfl | h
      · omega
      · exact hbnd x h
    · have hab : b < a := cmpInt_eq_gt.mp hc
      simp only [mergeLoopG, hc] at h
      rw [Option.map_eq_some'] at h
      obtain ⟨t', ht', rfl⟩ := h
      refine List.sorted_cons.mpr ⟨?_, mergeLoop_sorted m (a :: l) r t' hl hr' ht'⟩
      intro x hx
      rcases List.mem_append.mp
        ((mergeLoop_perm m (a :: l) r t' ht').mem_iff.mp hx) with h | h
      · rcases List.mem_cons.mp h with rfl | h
        · omega
        · have := hal x h
          omega
      · exact hbr x h
  termination_by m l r t => l.length + r.length

/-- Lists of length at most one are sorted. -/
theorem sorted_of_short (s : List Int) (h : s.length ≤ 1) : s.Sorted (· ≤ ·) := by
  rcases s with _ | ⟨a, _ | ⟨b, t⟩⟩
  · simp
  · simp
  · simp at h

/-- Whenever `merge` (at any fuel) returns normally the result is a sorted
permutation of the input. -/
theorem mergeF_spec : ∀ (f : Nat) (s t : List Int), mergeF cmpInt f s = some t →
    t.Perm s ∧ t.Sorted (· ≤ ·) := by
  intro f
  induction f with
  | zero =>
    intro s t h
    by_cases h1 : 1 < s.length
    · simp [mergeF, h1] at h
    · simp only [mergeF, if_neg h1, Option.some.injEq] at h
      subst h
      exact ⟨List.Perm.refl s, sorted_of_short s (by omega)⟩
  | succ f ih =>
    intro s t h
    by_cases h1 : 1 < s.length
    · simp only [mergeF, if_pos h1] at h
      rcases htk : mergeF cmpInt f (s.take (s.length / 2)) with _ | left
      · simp [htk] at h
      · rcases hdr : mergeF cmpInt f (s.drop (s.length / 2)) with _ | right
        · simp [htk, hdr] at h
        · simp only [htk, hdr] at h
          obtain ⟨hpl, hsl⟩ := ih _ _ htk
          obtain ⟨hpr, hsr⟩ := ih _ _ hdr
          refine ⟨(mergeLoop_perm _ _ _ _ h).trans ?_,
            mergeLoop_sorted _ _ _ _ hsl hsr h⟩
          refine (hpl.append hpr).trans ?_
          rw [List.take_append_drop]
    · simp only [mergeF, if_neg h1, Option.some.injEq] at h
      subst h
      exact ⟨List.Perm.refl s, sorted_of_short s (by omega)⟩

/-- Whenever `merge` returns normally the result is a sorted permutation. -/
theorem mergeI_spec (s t : List Int) (h : mergeI s = some t) :
    t.Perm s ∧ t.Sorted (· ≤ ·) :=
  mergeF_spec s.length s t h

/-- `merge` on `[3, 1, 2]` panics: the recursive calls return `[3]` and
`[1, 2]`, the top-level loop consumes `1` and `2` from the right half while
`3` remains on the left, and the final
`slice[(mid + i)..].clone_from_slice(&left[i..])` copies a 1-element source
into a 2-element destination (the length is odd), so `clone_from_slice`
panics. -/
theorem mergeI_panic_example : mergeI [3, 1, 2] = none := by
  simp [mergeI, mergeG, mergeF, mergeLoopG, cmpInt]

/-! ## Stability of `bubble` (key/index pairs compared only by key) -/

/-- A bubble pass under key-only comparison preserves the subsequence of any
fixed key: adjacent swaps happen only between strictly-ordered keys. -/
theorem passAux_filter_key :
    ∀ (f : Nat) (l : List (Int × Nat)) (k : Int),
      (passAux keyCmp f l).1.filter (fun p => p.1 == k) = l.filter (fun p => p.1 == k) := by
  intro f
  induction f with
  | zero => intro l k; rcases l with _ | ⟨a, _ | ⟨b, t⟩⟩ <;> simp [passAux]
  | succ f ih =>
    intro l k
    rcases l with _ | ⟨a, _ | ⟨b, t⟩⟩
    · simp [passAux]
    · simp [passAux]
    · simp only [passAux]
      by_cases hab : keyCmp a b = .gt
      · have hba : b.1 < a.1 := cmpInt_eq_gt.mp hab
        rw [if_pos hab]
        have ihp := ih (a :: t) k
        by_cases hbk : b.1 = k
        · have hak : a.1 ≠ k := by omega
          simp [List.filter_cons, hak, hbk] at ihp ⊢
          exact ihp
        · by_cases hak : a.1 = k
          · simp [List.filter_cons, hak, hbk] at ihp ⊢
            exact ihp
          · simp [List.filter_cons, hak, hbk] at ihp ⊢
            exact ihp
      · rw [if_neg hab]
        have ihp := ih (b :: t) k
        by_cases hak : a.1 = k <;> simp [List.filter_cons, hak, ihp]

/-- The outer bubble loop under key-only comparison preserves each key's
subsequence. -/
theorem bubbleLoop_filter_key :
    ∀ (f n : Nat) (l : List (Int × Nat)) (k : Int),
      (bubbleLoop keyCmp f n l).filter (fun p => p.1 == k) = l.filter (fun p => p.1 == k) := by
  intro f
  induction f with
  | zero => intro n l k; simp [bubbleLoop]
  | succ f ih =>
    intro n l k
    by_cases h1 : 1 < n
    · simp only [bubbleLoop, if_pos h1]
      rw [ih, passAux_filter_key]
    · simp only [bubbleLoop, if_neg h1]

/-- `bubble` is stable: under key-only comparison the subsequence of pairs
with any given key is exactly the input's. -/
theorem bubbleG_stable (l : List (Int × Nat)) (k : Int) :
    (bubbleG keyCmp l).filter (fun p => p.1 == k) = l.filter (fun p => p.1 == k) :=
  bubbleLoop_filter_key l.length l.length l k

/-! ## `quick_partition` -/

/-- The `lo` scan: with a stopper (an element `≥ pv` at index `j ≥ lo`) in
range and enough fuel, it stops at the first non-smaller element. -/
theorem scanLo_spec : ∀ (fuel lo : Nat) (s : List Int) (pv : Int) (j : Nat) (b : Int),
    lo ≤ j → s[j]? = some b → ¬ b < pv → j + 1 ≤ fuel + lo →
    ∃ lo2, scanLo s pv fuel lo = some lo2 ∧ lo ≤ lo2 ∧ lo2 ≤ j ∧
      (∃ a, s[lo2]? = some a ∧ ¬ a < pv) ∧
      (∀ k, lo ≤ k → k < lo2 → ∀ a, s[k]? = some a → a < pv) := by
  intro fuel
  induction fuel with
  | zero =>
    intro lo s pv j b hlj hj hb hf
    omega
  | succ fuel ih =>
    intro lo s pv j b hlj hj hb hf
    have hjlen : j < s.length := (List.getElem?_eq_some_iff.mp hj).1
    have hlolen : lo < s.length := by omega
    have hlo : s[lo]? = some (s[lo]) := List.getElem?_eq_getElem hlolen
    by_cases hless : s[lo] < pv
    · have hlj2 : lo < j := by
        rcases Nat.eq_or_lt_of_le hlj with rfl | h
        · rw [hlo, Option.some_inj] at hj
          omega
        · exact h
      obtain ⟨lo2, hs, h1, h2, h3, h4⟩ := ih (lo + 1) s pv j b (by omega) hj hb (by omega)
      refine ⟨lo2, ?_, by omega, h2, h3, ?_⟩
      · simp only [scanLo, hlo]
        rw [if_pos hless]
        exact hs
      · intro k hk1 hk2 a ha
        rcases Nat.eq_or_lt_of_le hk1 with rfl | h
        · rw [hlo, Option.some_inj] at ha
          omega
        · exact h4 k (by omega) hk2 a ha
    · refine ⟨lo, ?_, le_rfl, hlj, ⟨_, hlo, hless⟩, by omega⟩
      simp only [scanLo, hlo]
      rw [if_neg hless]

/-- The `hi` scan: always stops (at `0` or at the first non-greater
element), skipping only elements `> pv`. -/
theorem scanHi_spec : ∀ (hi : Nat) (s : List Int) (pv : Int), hi < s.length →
    ∃ hi2, scanHi s pv hi = some hi2 ∧ hi2 ≤ hi ∧
      (hi2 = 0 ∨ ∃ b, s[hi2]? = some b ∧ ¬ pv < b) ∧
      (∀ k, hi2 < k → k ≤ hi → ∀ b, s[k]? = some b → pv < b) := by
  intro hi
  induction hi with
  | zero =>
    intro s pv h
    exact ⟨0, by simp [scanHi], le_rfl, Or.inl rfl, by omega⟩
  | succ hi ih =>
    intro s pv h
    have hread : s[hi + 1]? = some (s[hi + 1]) := List.getElem?_eq_getElem h
    by_cases hgt : pv < s[hi + 1]
    · obtain ⟨hi2, hs, h1, h2, h3⟩ := ih s pv (by omega)
      refine ⟨hi2, ?_, by omega, h2, ?_⟩
      · simp only [scanHi, hread]
        rw [if_pos hgt]
        exact hs
      · intro k hk1 hk2 b hb
        rcases Nat.eq_or_lt_of_le hk2 with rfl | hlt
        · rw [hread, Option.some_inj] at hb
          omega
        · exact h3 k hk1 (by omega) b hb
    · refine ⟨hi + 1, ?_, le_rfl, Or.inr ⟨_, hread, hgt⟩, by omega⟩
      simp only [scanHi, hread]
      rw [if_neg hgt]

/-- `slice.swap i j` (two `set`s exchanging the two values) permutes the
list. -/
theorem swap_perm (s : List Int) (i j : Nat) (a b : Int)
    (ha : s[i]? = some a) (hb : s[j]? = some b) : ((s.set i b).set j a).Perm s := by
  have hilen : i < s.length := (List.getElem?_eq_some_iff.mp ha).1
  have hjlen : j < s.length := (List.getElem?_eq_some_iff.mp hb).1
  have hia : s[i] = a := by
    rw [List.getElem?_eq_getElem hilen, Option.some_inj] at ha
    exact ha
  have hjb : s[j] = b := by
    rw [List.getElem?_eq_getElem hjlen, Option.some_inj] at hb
    exact hb
  rw [List.perm_iff_count]
  intro x
  have hlen1 : j < (s.set i b).length := by
    rw [List.length_set]
    exact hjlen
  rw [List.count_set a x (s.set i b) j hlen1, List.count_set b x s i hilen]
  have hsj : (s.set i b)[j] = if i = j then b else s[j] := List.getElem_set _
  have hbmem : b ∈ s.set i b := by
    rcases eq_or_ne i j with rfl | hij
    · have hv : (s.set i b)[i] = b := by
        rw [List.getElem_set, if_pos rfl]
      have hmem := List.getElem_mem (by rw [List.length_set]; exact hilen : i < (s.set i b).length)
      rw [hv] at hmem
      exact hmem
    · have hv : (s.set i b)[j] = b := by rw [hsj, if_neg hij]; exact hjb
      have hmem := List.getElem_mem hlen1
      rw [hv] at hmem
      exact hmem
  have hamem : a ∈ s := by
    have hmem := List.getElem_mem hilen
    rw [hia] at hmem
    exact hmem
  have hb1 : a = x → 1 ≤ s.count x := by
    intro h
    subst h
    exact List.count_pos_iff.mpr hamem
  have hb2 : b = x → 1 ≤ (s.set i b).count x := by
    intro h
    subst h
    exact List.count_pos_iff.mpr hbmem
  have hcount : (s.set i b).count x =
      s.count x - (if (s[i] == x) = true then 1 else 0) +
        (if (b == x) = true then 1 else 0) := List.count_set b x s i hilen
  rcases eq_or_ne i j with rfl | hij
  · rw [if_pos rfl] at hsj
    have hab : a = b := by rw [← hia, ← hjb]
    subst hab
    rw [hsj, hia]
    by_cases h1 : a = x <;> (simp [h1]; all_goals omega)
  · rw [if_neg hij] at hsj
    rw [hsj, hjb, hia]
    rw [hia] at hcount
    by_cases h1 : a = x <;> by_cases h2 : b = x <;>
      simp [h1, h2] at hcount ⊢ <;> omega

/-- `slice.swap i j` succeeds when both indices are readable, and its result
is characterised pointwise. -/
theorem swapL_spec (s : List Int) (i j : Nat) (a b : Int)
    (ha : s[i]? = some a) (hb : s[j]? = some b) :
    ∃ s2, swapL s i j = some s2 ∧ s2.Perm s ∧ s2.length = s.length ∧
      s2[j]? = some a ∧ (i ≠ j → s2[i]? = some b) ∧ (i = j → s2[i]? = some a) ∧
      ∀ k, k ≠ i → k ≠ j → s2[k]? = s[k]? := by
  have hilen : i < s.length := (List.getElem?_eq_some_iff.mp ha).1
  have hjlen : j < s.length := (List.getElem?_eq_some_iff.mp hb).1
  refine ⟨(s.set i b).set j a, ?_, swap_perm s i j a b ha hb, by simp, ?_, ?_, ?_, ?_⟩
  · rw [swapL, ha, hb]
  · exact List.getElem?_set_self (by simp [hjlen])
  · intro hij
    rw [List.getElem?_set_ne (Ne.symm hij), List.getElem?_set_self hilen]
  · intro hij
    subst hij
    rw [List.getElem?_set_self (by simp [hilen])]
  · intro k hki hkj
    rw [List.getElem?_set_ne (Ne.symm hkj), List.getElem?_set_ne (Ne.symm hki)]

/-- Core analysis of one `partLoop` iteration, after the `equal`-driven
increment has produced the effective scan start `lo1`.  Gives the scan
results, the maintained bounds, and — depending on the break test — either
the partition post-condition or the data needed to re-establish the
invariant. -/
theorem partLoop_core (s : List Int) (lo1 hi pivot : Nat) (pv : Int)
    (hhi : hi < s.length) (hpiv : pivot < s.length) (hpv : s[pivot]? = some pv)
    (hA1 : ∀ k, k < lo1 → ∀ c, s[k]? = some c → c ≤ pv)
    (hB : ∀ k, hi < k → ∀ c, s[k]? = some c → pv ≤ c)
    (hstop : pivot < lo1 → ∃ j, lo1 ≤ j ∧ j ≤ hi ∧ s[j]? = some pv) :
    ∃ lo2 hi2, scanLo s pv (s.length + 1) lo1 = some lo2 ∧ scanHi s pv hi = some hi2 ∧
      lo1 ≤ lo2 ∧ hi2 ≤ hi ∧ lo2 < s.length ∧
      (∀ k, k < lo2 → ∀ c, s[k]? = some c → c ≤ pv) ∧
      (∀ k, hi2 < k → ∀ c, s[k]? = some c → pv ≤ c) ∧
      (hi2 ≤ lo2 → ∃ s2, swapL s lo2 pivot = some s2 ∧ PartPost s s2 lo2 pv) ∧
      (lo2 < hi2 → ∃ a2 b2, s[lo2]? = some a2 ∧ s[hi2]? = some b2 ∧ pv ≤ a2 ∧ b2 ≤ pv ∧
        (a2 = b2 → PartInv s lo2 hi2 pivot true pv) ∧
        (a2 ≠ b2 →
          ∃ s2, swapL s lo2 hi2 = some s2 ∧ s2.Perm s ∧ s2.length = s.length ∧
            PartInv s2 lo2 hi2
              (if lo2 = pivot then hi2 else if hi2 = pivot then lo2 else pivot) false pv ∧
            PartFlat s2 lo2 hi2 pv)) := by
  -- a stopper for the `lo` scan
  obtain ⟨j0, b0, hj0ge, hj0v, hj0ge2⟩ :
      ∃ j b, lo1 ≤ j ∧ s[j]? = some b ∧ ¬ b < pv := by
    by_cases hple : lo1 ≤ pivot
    · exact ⟨pivot, pv, hple, hpv, by omega⟩
    · obtain ⟨j, h1, h2, h3⟩ := hstop (by omega)
      exact ⟨j, pv, h1, h3, by omega⟩
  have hj0len : j0 < s.length := (List.getElem?_eq_some_iff.mp hj0v).1
  obtain ⟨lo2, hscanLo, hlo2ge, hlo2le, ⟨a2, ha2, ha2ge⟩, hbelow⟩ :=
    scanLo_spec (s.length + 1) lo1 s pv j0 b0 hj0ge hj0v hj0ge2 (by omega)
  obtain ⟨hi2, hscanHi, hhi2le, hhi2v, habove⟩ := scanHi_spec hi s pv hhi
  have hlo2len : lo2 < s.length := (List.getElem?_eq_some_iff.mp ha2).1
  have hA2 : ∀ k, k < lo2 → ∀ c, s[k]? = some c → c ≤ pv := by
    intro k hk c hc
    by_cases hk1 : k < lo1
    · exact hA1 k hk1 c hc
    · exact le_of_lt (hbelow k (by omega) hk c hc)
  have hB2 : ∀ k, hi2 < k → ∀ c, s[k]? = some c → pv ≤ c := by
    intro k hk c hc
    by_cases hk1 : k ≤ hi
    · exact le_of_lt (habove k hk hk1 c hc)
    · exact hB k (by omega) c hc
  have hlopiv : lo1 ≤ pivot → lo2 ≤ pivot := by
    intro h
    by_contra hgt
    exact absurd (hbelow pivot h (by omega) pv hpv) (by omega)
  have hEcase : pivot < lo1 → lo2 ≤ hi2 ∧ ∃ j, lo2 ≤ j ∧ j ≤ hi2 ∧ s[j]? = some pv := by
    intro h
    obtain ⟨j1, hj1a, hj1b, hj1v⟩ := hstop h
    have hlo2j1 : lo2 ≤ j1 := by
      by_contra hgt
      exact absurd (hbelow j1 hj1a (by omega) pv hj1v) (by omega)
    have hj1hi2 : j1 ≤ hi2 := by
      by_contra hgt
      exact absurd (habove j1 (by omega) hj1b pv hj1v) (by omega)
    exact ⟨by omega, j1, hlo2j1, hj1hi2, hj1v⟩
  refine ⟨lo2, hi2, hscanLo, hscanHi, hlo2ge, hhi2le, hlo2len, hA2, hB2, ?_, ?_⟩
  · -- break: swap the pivot into position `lo2`
    intro hbr
    obtain ⟨s2, hswap, hperm, hlen, hjv, hine, hieq, hother⟩ :=
      swapL_spec s lo2 pivot a2 pv ha2 hpv
    have hs2lo2 : s2[lo2]? = some pv := by
      by_cases hlp : lo2 = pivot
      · have h1 := hieq hlp
        have h2 : a2 = pv := by
          rw [hlp] at ha2
          rw [ha2, Option.some_inj] at hpv
          exact hpv
        rw [h1, h2]
      · exact hine hlp
    -- in the runaway case (`pivot < lo1`) the break point carries the pivot
    -- value, so the element moved onto the old pivot slot is `pv` itself
    have ha2pv : pivot < lo2 → a2 = pv := by
      intro hplo
      by_cases hple : lo1 ≤ pivot
      · exact absurd (hlopiv hple) (by omega)
      · obtain ⟨-, j, hj1, hj2, hjv0⟩ := hEcase (by omega)
        have hj : j = lo2 := by omega
        rw [hj] at hjv0
        rw [ha2, Option.some_inj] at hjv0
        exact hjv0
    refine ⟨s2, hswap, hperm, hlo2len, hs2lo2, ?_, ?_⟩
    · intro k hk c hc
      by_cases hkp : k = pivot
      · subst hkp
        have h2 := ha2pv (by omega)
        rw [hjv, Option.some_inj] at hc
        omega
      · rw [hother k (by omega) hkp] at hc
        exact hA2 k hk c hc
    · intro k hk c hc
      by_cases hkp : k = pivot
      · subst hkp
        rw [hjv, Option.some_inj] at hc
        omega
      · rw [hother k (by omega) hkp] at hc
        exact hB2 k (by omega) c hc
  · -- no break: an equal pair or a swap
    intro hnb
    have hhi2len : hi2 < s.length := by omega
    obtain ⟨b2, hb2, hb2le⟩ : ∃ b, s[hi2]? = some b ∧ ¬ pv < b := by
      rcases hhi2v with h | h
      · omega
      · exact h
    refine ⟨a2, b2, ha2, hb2, by omega, by omega, ?_, ?_⟩
    · -- the two cursor values are equal, hence both are the pivot value
      intro hab
      have ha2pv : a2 = pv := by omega
      have hb2pv : b2 = pv := by omega
      refine ⟨hhi2len, hpiv, hpv, hA2, hB2, ?_, ?_⟩
      · intro _
        exact ⟨hnb, by rw [ha2, ha2pv], by rw [hb2, hb2pv]⟩
      · intro _
        exact ⟨lo2, le_rfl, by omega, by rw [ha2, ha2pv]⟩
    · -- different values: swap, tracking the pivot slot
      intro hab
      obtain ⟨s2, hswap, hperm, hlen, hjv, hine, hieq, hother⟩ :=
        swapL_spec s lo2 hi2 a2 b2 ha2 hb2
      have hne : lo2 ≠ hi2 := by omega
      have hs2lo2 : s2[lo2]? = some b2 := hine hne
      have hs2hi2 : s2[hi2]? = some a2 := hjv
      refine ⟨s2, hswap, hperm, hlen, ?_, ?_⟩
      · refine ⟨by rw [hlen]; omega, ?_, ?_, ?_, ?_, by simp, ?_⟩
        · -- tracked pivot in bounds
          rw [hlen]
          split
          · omega
          · split
            · omega
            · omega
        · -- the tracked pivot slot holds `pv`
          by_cases h1 : lo2 = pivot
          · rw [if_pos h1, hs2hi2, Option.some_inj]
            rw [h1] at ha2
            rw [ha2, Option.some_inj] at hpv
            exact hpv
          · rw [if_neg h1]
            by_cases h2 : hi2 = pivot
            · rw [if_pos h2, hs2lo2, Option.some_inj]
              rw [h2] at hb2
              rw [hb2, Option.some_inj] at hpv
              exact hpv
            · rw [if_neg h2, hother pivot (fun h => h1 h.symm) (fun h => h2 h.symm)]
              exact hpv
        · intro k hk c hc
          rw [hother k (by omega) (by omega)] at hc
          exact hA2 k hk c hc
        · intro k hk c hc
          rw [hother k (by omega) (by omega)] at hc
          exact hB2 k hk c hc
        · -- pivot-valued stopper when the tracked pivot is left of `lo2`
          by_cases h1 : lo2 = pivot
          · rw [if_pos h1]
            intro h
            omega
          · rw [if_neg h1]
            by_cases h2 : hi2 = pivot
            · rw [if_pos h2]
              intro h
              omega
            · rw [if_neg h2]
              intro hplo
              by_cases hple : lo1 ≤ pivot
              · exact absurd (hlopiv hple) (by omega)
              · obtain ⟨-, j, hj1, hj2, hjv0⟩ := hEcase (by omega)
                by_cases hj1e : j = lo2
                · refine ⟨hi2, by omega, le_rfl, ?_⟩
                  rw [hs2hi2, Option.some_inj]
                  rw [hj1e, ha2, Option.some_inj] at hjv0
                  exact hjv0
                · by_cases hj2e : j = hi2
                  · refine ⟨lo2, le_rfl, by omega, ?_⟩
                    rw [hs2lo2, Option.some_inj]
                    rw [hj2e, hb2, Option.some_inj] at hjv0
                    exact hjv0
                  · refine ⟨j, by omega, by omega, ?_⟩
                    rw [hother j hj1e hj2e]
                    exact hjv0
      · exact ⟨hnb, a2, b2, hs2lo2, hs2hi2, by omega, by omega, hab⟩

/-- One iteration of `partLoop` from an invariant state either returns with
the partition post-condition or recurses into an invariant state, with the
measure `partMu` decreasing (immediately, or — after a cursor-preserving
swap — certified to decrease on the next iteration). -/
theorem partLoop_step (s : List Int) (lo hi pivot : Nat) (equal : Bool) (pv : Int) (f : Nat)
    (hinv : PartInv s lo hi pivot equal pv) :
    (∃ s2 p, partLoop s lo hi pivot equal (f + 1) = some (s2, p) ∧ PartPost s s2 p pv) ∨
    (∃ s2 lo2 hi2 pivot2 equal2,
      partLoop s lo hi pivot equal (f + 1) = partLoop s2 lo2 hi2 pivot2 equal2 f ∧
      PartInv s2 lo2 hi2 pivot2 equal2 pv ∧ s2.Perm s ∧ s2.length = s.length ∧
      (partMu lo2 hi2 equal2 + 1 ≤ partMu lo hi equal ∨
        (partMu lo2 hi2 equal2 ≤ partMu lo hi equal ∧ equal2 = false ∧
          PartFlat s2 lo2 hi2 pv)) ∧
      (equal = false → PartFlat s lo hi pv →
        partMu lo2 hi2 equal2 + 1 ≤ partMu lo hi equal)) := by
  obtain ⟨hhi, hpiv, hpv, hA, hB, hD, hE⟩ := hinv
  have hmt : ∀ l h : Nat, partMu l h true = 2 * (h + 1 - l) := by
    intro l h
    simp [partMu]
  have hmf : ∀ l h : Nat, partMu l h false = 2 * (h + 1 - l) + 1 := by
    intro l h
    simp [partMu]
  have hA1 : ∀ k, k < (if equal = true then lo + 1 else lo) → ∀ c, s[k]? = some c → c ≤ pv := by
    intro k hk c hc
    by_cases he : equal = true
    · rw [if_pos he] at hk
      by_cases hkl : k < lo
      · exact hA k hkl c hc
      · have hkl2 : k = lo := by omega
        subst hkl2
        rw [(hD he).2.1, Option.some_inj] at hc
        omega
    · rw [if_neg he] at hk
      exact hA k hk c hc
  have hstop : pivot < (if equal = true then lo + 1 else lo) →
      ∃ j, (if equal = true then lo + 1 else lo) ≤ j ∧ j ≤ hi ∧ s[j]? = some pv := by
    intro hp
    by_cases he : equal = true
    · obtain ⟨hlh, -, hhiv⟩ := hD he
      rw [if_pos he]
      exact ⟨hi, by omega, le_rfl, hhiv⟩
    · rw [if_neg he] at hp ⊢
      exact hE hp
  obtain ⟨lo2, hi2, hscanLo, hscanHi, hlo2ge, hhi2le, hlo2len, hA2, hB2, hbreak, hnobreak⟩ :=
    partLoop_core s (if equal = true then lo + 1 else lo) hi pivot pv hhi hpiv hpv hA1 hB hstop
  have hlo2lo : lo ≤ lo2 := by
    by_cases he : equal = true
    · rw [if_pos he] at hlo2ge
      omega
    · rw [if_neg he] at hlo2ge
      omega
  by_cases hbr : hi2 ≤ lo2
  · -- break: done with the post-condition
    obtain ⟨s2, hswap, hpost⟩ := hbreak hbr
    left
    refine ⟨s2, lo2, ?_, hpost⟩
    simp only [partLoop, hpv, hscanLo, hscanHi]
    rw [if_pos hbr, hswap]
  · -- continue
    obtain ⟨a2, b2, ha2, hb2, ha2ge, hb2le, heqc, hnec⟩ := hnobreak (by omega)
    right
    by_cases hab : a2 = b2
    · -- equal pair: set the flag
      refine ⟨s, lo2, hi2, pivot, true, ?_, heqc hab, List.Perm.refl s, rfl, ?_, ?_⟩
      · simp only [partLoop, hpv, hscanLo, hscanHi]
        rw [if_neg hbr, ha2, hb2]
        simp only [if_pos hab]
      · left
        by_cases he : equal = true
        · obtain ⟨hlh, -, -⟩ := hD he
          rw [if_pos he] at hlo2ge
          rw [he, hmt, hmt]
          omega
        · have hef : equal = false := by
            cases equal
            · rfl
            · exact absurd rfl he
          subst hef
          rw [hmt, hmf]
          omega
      · intro hef hflat
        subst hef
        rw [hmt, hmf]
        omega
    · -- swap
      obtain ⟨s2, hswap, hperm, hlen, hinv2, hflat2⟩ := hnec hab
      refine ⟨s2, lo2, hi2, if lo2 = pivot then hi2 else if hi2 = pivot then lo2 else pivot,
        false, ?_, hinv2, hperm, hlen, ?_, ?_⟩
      · simp only [partLoop, hpv, hscanLo, hscanHi]
        rw [if_neg hbr, ha2, hb2]
        simp only [if_neg hab]
        rw [hswap]
      · by_cases he : equal = true
        · obtain ⟨hlh, -, -⟩ := hD he
          rw [if_pos he] at hlo2ge
          left
          rw [he, hmf, hmt]
          omega
        · have hef : equal = false := by
            cases equal
            · rfl
            · exact absurd rfl he
          subst hef
          by_cases hprog : lo + 1 ≤ lo2 ∨ hi2 + 1 ≤ hi
          · left
            rw [hmf, hmf]
            omega
          · right
            refine ⟨?_, rfl, hflat2⟩
            rw [hmf, hmf]
            omega
      · intro hef hflat
        subst hef
        obtain ⟨hlh, fa, fb, hflo, hfhi, hfble, hfage, hfne⟩ := hflat
        rw [if_neg (by simp : ¬ (false = true))] at hlo2ge
        -- a cursor must have moved
        have hprog : lo + 1 ≤ lo2 ∨ hi2 + 1 ≤ hi := by
          by_contra hcon
          push_neg at hcon
          obtain ⟨h1, h2⟩ := hcon
          have hlo2eq : lo2 = lo := by omega
          have hhi2eq : hi2 = hi := by omega
          rw [hlo2eq] at ha2
          rw [hhi2eq] at hb2
          rw [hflo, Option.some_inj] at ha2
          rw [hfhi, Option.some_inj] at hb2
          -- `a2 = fb ≤ pv ≤ a2` forces `a2 = pv`; then `fa > pv`; but
          -- `b2 = fa ≤ pv` — contradiction
          omega
        rw [hmf, hmf]
        omega

/-- The partition post-condition transfers along a permutation of the entry
state. -/
theorem partPost_trans {s0 s1 s2 : List Int} {p : Nat} {pv : Int}
    (h : PartPost s1 s2 p pv) (hperm : s1.Perm s0) (hlen : s1.length = s0.length) :
    PartPost s0 s2 p pv :=
  ⟨h.1.trans hperm, hlen ▸ h.2.1, h.2.2.1, h.2.2.2.1, h.2.2.2.2⟩

/-- `partLoop` from an invariant state with fuel at least `2·μ + 2` returns
the partition post-condition. -/
theorem partLoop_run : ∀ (m : Nat) (s : List Int) (lo hi pivot : Nat) (equal : Bool)
    (pv : Int) (f : Nat),
    PartInv s lo hi pivot equal pv → partMu lo hi equal ≤ m → 2 * m + 2 ≤ f →
    ∃ s2 p, partLoop s lo hi pivot equal f = some (s2, p) ∧ PartPost s s2 p pv := by
  intro m
  induction m with
  | zero =>
    intro s lo hi pivot equal pv f hinv hmu hf
    exfalso
    obtain ⟨-, -, -, -, -, hD, -⟩ := hinv
    cases equal with
    | false => simp [partMu] at hmu
    | true =>
      obtain ⟨hlh, -, -⟩ := hD rfl
      simp [partMu] at hmu
      omega
  | succ m ih =>
    intro s lo hi pivot equal pv f hinv hmu hf
    obtain ⟨f1, rfl⟩ : ∃ f1, f = f1 + 1 := ⟨f - 1, by omega⟩
    rcases partLoop_step s lo hi pivot equal pv f1 hinv with
      ⟨s2, p, heq, hpost⟩ |
      ⟨s2, lo2, hi2, pivot2, equal2, heq, hinv2, hperm2, hlen2, hmu2, hflatimp⟩
    · exact ⟨s2, p, heq, hpost⟩
    · rcases hmu2 with hdec | ⟨hle, hef, hflat⟩
      · obtain ⟨s3, p, heq2, hpost2⟩ :=
          ih s2 lo2 hi2 pivot2 equal2 pv f1 hinv2 (by omega) (by omega)
        exact ⟨s3, p, by rw [heq, heq2], partPost_trans hpost2 hperm2 hlen2⟩
      · obtain ⟨f2, rfl⟩ : ∃ f2, f1 = f2 + 1 := ⟨f1 - 1, by omega⟩
        rcases partLoop_step s2 lo2 hi2 pivot2 equal2 pv f2 hinv2 with
          ⟨s3, p, heq2, hpost2⟩ |
          ⟨s3, lo3, hi3, pivot3, equal3, heq2, hinv3, hperm3, hlen3, hmu3, hflatimp2⟩
        · exact ⟨s3, p, by rw [heq, heq2], partPost_trans hpost2 hperm2 hlen2⟩
        · have hdec2 : partMu lo3 hi3 equal3 + 1 ≤ partMu lo2 hi2 equal2 :=
            hflatimp2 hef hflat
          obtain ⟨s4, p, heq3, hpost3⟩ :=
            ih s3 lo3 hi3 pivot3 equal3 pv f2 hinv3 (by omega) (by omega)
          refine ⟨s4, p, by rw [heq, heq2, heq3], ?_⟩
          exact partPost_trans (partPost_trans hpost3 hperm3 hlen3) hperm2 hlen2

/-- `quick_partition` on a non-empty slice: terminates with a permutation,
an in-bounds pivot index holding the pivot value, smaller-or-equal elements
before it and greater-or-equal elements after it. -/
theorem quick_partitionI_spec (s : List Int) (hne : s ≠ []) :
    ∃ s2 p pv, quick_partitionI s = some (s2, p) ∧ s2.Perm s ∧ p < s.length ∧
      s2[p]? = some pv ∧
      (∀ k, k < p → ∀ c, s2[k]? = some c → c ≤ pv) ∧
      (∀ k, p < k → ∀ c, s2[k]? = some c → pv ≤ c) := by
  obtain ⟨n, hlen⟩ : ∃ n, s.length = n + 1 := by
    have := List.length_pos.mpr hne
    exact ⟨s.length - 1, by omega⟩
  have hnlen : n < s.length := by omega
  have hpv : s[n]? = some (s[n]) := List.getElem?_eq_getElem hnlen
  have hinv : PartInv s 0 n n false (s[n]) := by
    refine ⟨hnlen, hnlen, hpv, by omega, ?_, by simp, by omega⟩
    intro k hk c hc
    have := (List.getElem?_eq_some_iff.mp hc).1
    omega
  obtain ⟨s2, p, hrun, hpost⟩ := partLoop_run (2 * n + 3) s 0 n n false (s[n])
    (4 * s.length + 8) hinv (by simp [partMu]; omega) (by omega)
  refine ⟨s2, p, s[n], ?_, hpost.1, hpost.2.1, hpost.2.2.1, hpost.2.2.2.1,
    hpost.2.2.2.2⟩
  rw [hlen] at hrun
  simp only [quick_partitionI, hlen]
  exact hrun

/-- `quick` with fuel at least the length: terminates with a sorted
permutation. -/
theorem quickF_spec : ∀ (f : Nat) (s : List Int), s.length ≤ f →
    ∃ t, quickF f s = some t ∧ t.Perm s ∧ t.Sorted (· ≤ ·) := by
  intro f
  induction f with
  | zero =>
    intro s hf
    have hs : s.length ≤ 1 := by omega
    refine ⟨s, ?_, List.Perm.refl s, sorted_of_short s hs⟩
    simp only [quickF, if_pos hs]
  | succ f ih =>
    intro s hf
    by_cases hs : s.length ≤ 1
    · refine ⟨s, ?_, List.Perm.refl s, sorted_of_short s hs⟩
      simp only [quickF, if_pos hs]
    · obtain ⟨s2, p, pv, hpart, hperm, hplen, hpv, hlow, hhigh⟩ :=
        quick_partitionI_spec s (by intro h; rw [h] at hs; simp at hs)
      have hs2len : s2.length = s.length := hperm.length_eq
      have htlen : (s2.take p).length ≤ f := by
        simp [List.length_take]
        omega
      have hdlen : (s2.drop (p + 1)).length ≤ f := by
        simp [List.length_drop]
        omega
      obtain ⟨L, hL, hLperm, hLsort⟩ := ih (s2.take p) htlen
      obtain ⟨R, hR, hRperm, hRsort⟩ := ih (s2.drop (p + 1)) hdlen
      refine ⟨L ++ pv :: R, ?_, ?_, ?_⟩
      · simp only [quickF, if_neg hs, hpart, hpv, hL, hR]
      · -- permutation: reassemble the three pieces
        have hsplit : s2.take p ++ pv :: s2.drop (p + 1) = s2 := by
          have hplen2 : p < s2.length := by omega
          have hpveq : s2[p] = pv := by
            rw [List.getElem?_eq_getElem hplen2, Option.some_inj] at hpv
            exact hpv
          rw [← hpveq, List.getElem_cons_drop, List.take_append_drop]
        have h1 : (L ++ pv :: R).Perm (s2.take p ++ pv :: s2.drop (p + 1)) :=
          hLperm.append (hRperm.cons pv)
        rw [hsplit] at h1
        exact h1.trans hperm
      · -- sortedness
        have hLle : ∀ x ∈ L, x ≤ pv := by
          intro x hx
          obtain ⟨k, hk, hkv⟩ := exists_getElem?_of_mem_take (hLperm.mem_iff.mp hx)
          exact hlow k hk x hkv
        have hRge : ∀ x ∈ R, pv ≤ x := by
          intro x hx
          obtain ⟨k, hkv⟩ := List.mem_iff_getElem?.mp (hRperm.mem_iff.mp hx)
          rw [List.getElem?_drop] at hkv
          exact hhigh (p + 1 + k) (by omega) x hkv
        rw [List.Sorted, List.pairwise_append]
        refine ⟨hLsort, ?_, ?_⟩
        · rw [List.pairwise_cons]
          exact ⟨hRge, hRsort⟩
        · intro x hx y hy
          rcases List.mem_cons.mp hy with rfl | hy
          · exact hLle x hx
          · exact le_trans (hLle x hx) (hRge y hy)

/-- `quick` terminates with a sorted permutation. -/
theorem quickI_spec (s : List Int) :
    ∃ t, quickI s = some t ∧ t.Perm s ∧ t.Sorted (· ≤ ·) :=
  quickF_spec s.length s le_rfl

/-! ## Claims -/

/-- C1: the claim fails for `merge` — a code bug.  On `[3, 1, 2]` the merge
loop exhausts the right half first and runs
`slice[(mid + i)..].clone_from_slice(&left[i..])` with a 2-element
destination (`slice[1..]`) and a 1-element source (`left[0..]`), so
`clone_from_slice` panics on the length mismatch instead of terminating
normally; the spec's tail copy (and the `merge` post-condition) is the
evident intent, and the destination start `mid + i` in place of `i + j` is
the slip.  `bubble` and `quick` do terminate normally with sorted output on
every input, and `merge` leaves the sequence sorted whenever it returns
normally. -/
theorem claim_C1_sorts_sort (s : List Int) :
    is_sortedI (bubbleI s) = true ∧
    (∃ t, quickI s = some t ∧ is_sortedI t = true) ∧
    mergeI [3, 1, 2] = none ∧
    (∀ t, mergeI s = some t → is_sortedI t = true) := by
  refine ⟨(is_sortedI_iff_sorted _).mpr (bubbleI_spec s).2, ?_,
    mergeI_panic_example, ?_⟩
  · obtain ⟨t, h1, -, h3⟩ := quickI_spec s
    exact ⟨t, h1, (is_sortedI_iff_sorted _).mpr h3⟩
  · intro t ht
    exact (is_sortedI_iff_sorted _).mpr (mergeI_spec s t ht).2

/-- C2 counterexample: on the empty sequence `binary` does not return
absence — it reads `slice[len/2] = slice[0]` out of bounds and panics
(modelled by the outer `none`), contradicting the claim that every search
function returns `None` rather than failing. -/
theorem claim_C2_counterexample :
    binaryI ([] : List Int) 0 = none ∧ binaryI ([] : List Int) 0 ≠ some none := by
  exact ⟨rfl, by decide⟩

/-- C2 (amended): on the empty sequence `linear` (and `jump_step` with step
1, which delegates to it) returns absence; `binary`, `binary_first`,
`jump_step` with step 0 or step ≥ 2, and `jump` all panic on an
out-of-bounds index; every sort function is a no-op; `is_sorted` returns
true. -/
theorem claim_C2_empty_behaviour (v : Int) (step : Nat) (hstep : 2 ≤ step) :
    linearI [] v = none ∧
    jump_stepI [] v 1 = some none ∧
    binaryI [] v = none ∧
    binary_firstI [] v = none ∧
    jump_stepI [] v 0 = none ∧
    jump_stepI [] v step = none ∧
    jumpI [] v = none ∧
    bubbleI [] = [] ∧ mergeI [] = some [] ∧ quickI [] = some [] ∧
    is_sortedI [] = true := by
  have h1 : step ≠ 1 := by omega
  have h0 : step ≠ 0 := by omega
  refine ⟨rfl, rfl, rfl, rfl, rfl, ?_, rfl, rfl, rfl, rfl, rfl⟩
  simp [jump_stepI, h1, h0, jumpLoop]

/-- C2 witness: the amended statement at `v = 0`, `step = 2`. -/
theorem claim_C2_empty_behaviour_witness :
    2 ≤ 2 ∧
    (linearI [] 0 = none ∧
    jump_stepI [] 0 1 = some none ∧
    binaryI [] 0 = none ∧
    binary_firstI [] 0 = none ∧
    jump_stepI [] 0 0 = none ∧
    jump_stepI [] 0 2 = none ∧
    jumpI [] 0 = none ∧
    bubbleI [] = [] ∧ mergeI [] = some [] ∧ quickI [] = some [] ∧
    is_sortedI [] = true) :=
  ⟨by decide, claim_C2_empty_behaviour 0 2 (by decide)⟩

/-- C3: the claim fails for `merge` — the same code bug as the sortedness
claim.  On `[3, 1, 2]` the final `clone_from_slice` panics on a length
mismatch, and the slice it abandons is `[1, 2, 2]`, not a permutation of the
input.  `bubble` and `quick` do leave a permutation on every input, and
`merge` leaves a permutation whenever it returns normally. -/
theorem claim_C3_sorts_permute (s : List Int) :
    ((bubbleI s : List Int) : Multiset Int) = (s : Multiset Int) ∧
    (∃ t, quickI s = some t ∧
      ((t : List Int) : Multiset Int) = (s : Multiset Int)) ∧
    mergeI [3, 1, 2] = none ∧
    (∀ t, mergeI s = some t →
      ((t : List Int) : Multiset Int) = (s : Multiset Int)) := by
  refine ⟨Multiset.coe_eq_coe.mpr (bubbleI_spec s).1, ?_,
    mergeI_panic_example, ?_⟩
  · obtain ⟨t, h1, h2, -⟩ := quickI_spec s
    exact ⟨t, h1, Multiset.coe_eq_coe.mpr h2⟩
  · intro t ht
    exact Multiset.coe_eq_coe.mpr (mergeI_spec s t ht).1

/-- Concrete evaluation of `merge` on the two equal-keyed pairs: the length
is even so the final copy cannot panic, the call returns normally, and the
right pair is overwritten by a copy of the left one. -/
theorem mergeG_key_example :
    mergeG keyCmp [((1 : Int), (0 : Nat)), (1, 1)] = some [(1, 0), (1, 0)] := by
  simp [mergeG, mergeF, mergeLoopG, keyCmp, cmpInt]

/-- C4 counterexample: `merge` is not stable for (key, index) pairs compared
only by key: on `[(1,0), (1,1)]` it returns normally (the length is even,
so its final copy cannot panic) but the `Equal` branch writes the left pair
into both output slots, so the key-1 subsequence of the output is
`[(1,0), (1,0)]`, not the input's `[(1,0), (1,1)]` — the right pair is lost
entirely. -/
theorem claim_C4_counterexample :
    mergeG keyCmp [((1 : Int), (0 : Nat)), (1, 1)] = some [(1, 0), (1, 0)] ∧
    ([((1 : Int), (0 : Nat)), (1, 0)]).filter (fun p => p.1 == 1) ≠
      ([((1 : Int), (0 : Nat)), (1, 1)]).filter (fun p => p.1 == 1) :=
  ⟨mergeG_key_example, by decide⟩

/-- C4 (amended): `bubble` is stable — under key-only comparison the
subsequence of pairs with any given key is exactly the input's — but `merge`
is not: on `[(1,0), (1,1)]` it returns normally and when the two cursor
elements compare equal it writes the left element into both slots, replacing
the right element by a copy of the left one (`[(1,0), (1,1)]` becomes
`[(1,0), (1,0)]`). -/
theorem claim_C4_bubble_stable_merge_not :
    (∀ (l : List (Int × Nat)) (k : Int),
      (bubbleG keyCmp l).filter (fun p => p.1 == k) = l.filter (fun p => p.1 == k)) ∧
    mergeG keyCmp [((1 : Int), (0 : Nat)), (1, 1)] = some [(1, 0), (1, 0)] :=
  ⟨fun l k => bubbleG_stable l k, mergeG_key_example⟩

/-- C5 counterexample: the empty sequence is sorted and `0` is not present,
yet `binary_first` does not return absence — it panics inside `binary`'s
unguarded `slice[0]` read. -/
theorem claim_C5_counterexample :
    is_sortedI [] = true ∧ (0 : Int) ∉ ([] : List Int) ∧
    binary_firstI ([] : List Int) 0 ≠ some none := by
  exact ⟨rfl, by simp, by decide⟩

/-- C5 (amended): for every *non-empty* sorted sequence and every value,
`binary_first` returns the smallest index of the value when present and
absence when not (on the empty sequence it panics instead). -/
theorem claim_C5_binary_first (s : List Int) (v : Int)
    (hs : is_sortedI s = true) (hne : s ≠ []) :
    (v ∈ s → ∃ i, binary_firstI s v = some (some i) ∧ s[i]? = some v ∧
      ∀ j, j < i → s[j]? ≠ some v) ∧
    (v ∉ s → binary_firstI s v = some none) :=
  binary_firstI_spec s v ((is_sortedI_iff_sorted s).mp hs) hne

/-- C5 witness: the amended statement on `[1,1,2,3]` with `v = 1` (the
spec's own duplicate-run scenario). -/
theorem claim_C5_binary_first_witness :
    is_sortedI [1, 1, 2, 3] = true ∧
    (((1 : Int) ∈ ([1, 1, 2, 3] : List Int) →
      ∃ i, binary_firstI [1, 1, 2, 3] 1 = some (some i) ∧
        ([1, 1, 2, 3] : List Int)[i]? = some 1 ∧
        ∀ j, j < i → ([1, 1, 2, 3] : List Int)[j]? ≠ some 1) ∧
    ((1 : Int) ∉ ([1, 1, 2, 3] : List Int) →
      binary_firstI [1, 1, 2, 3] 1 = some none)) :=
  ⟨by decide, claim_C5_binary_first [1, 1, 2, 3] 1 (by decide) (by decide)⟩

/-- C6 counterexample: on the empty (vacuously sorted) sequence `jump` does
not return any verdict at all — `step = ⌊√0⌋ = 0` and the `step = 0` branch
reads `slice[0]` out of bounds — while `linear` returns absence, so the
claimed agreement fails at `s = []`, `v = 0`. -/
theorem claim_C6_counterexample :
    is_sortedI [] = true ∧ linearI ([] : List Int) 0 = none ∧
    ¬ ∃ r, jumpI ([] : List Int) 0 = some r := by
  refine ⟨rfl, rfl, ?_⟩
  rintro ⟨r, hr⟩
  rw [show jumpI ([] : List Int) 0 = none from rfl] at hr
  cases hr

/-- C6 (amended): for every *non-empty* sorted sequence and every value,
`jump` returns normally and its presence/absence verdict matches
`linear`'s (on the empty sequence it panics instead). -/
theorem claim_C6_jump_linear (s : List Int) (v : Int)
    (hs : is_sortedI s = true) (hne : s ≠ []) :
    ∃ r, jumpI s v = some r ∧ (r.isSome = true ↔ (linearI s v).isSome = true) := by
  obtain ⟨r, h1, h2⟩ := jumpI_verdict s v ((is_sortedI_iff_sorted s).mp hs) hne
  exact ⟨r, h1, by rw [h2]⟩

/-- C6 witness: the amended statement on the spec's jump-search scenario
`[1,5,7,15,31,32,45]` with `v = 15`. -/
theorem claim_C6_jump_linear_witness :
    is_sortedI [1, 5, 7, 15, 31, 32, 45] = true ∧
    ∃ r, jumpI [1, 5, 7, 15, 31, 32, 45] 15 = some r ∧
      (r.isSome = true ↔ (linearI [1, 5, 7, 15, 31, 32, 45] 15).isSome = true) :=
  ⟨by decide, claim_C6_jump_linear [1, 5, 7, 15, 31, 32, 45] 15 (by decide) (by decide)⟩

/-- C7 counterexample: the empty sequence is sorted and `7` is absent, yet
`binary` does not return absence — it panics on its unguarded `slice[0]`
read. -/
theorem claim_C7_counterexample :
    is_sortedI [] = true ∧ (7 : Int) ∉ ([] : List Int) ∧
    binaryI ([] : List Int) 7 ≠ some none := by
  exact ⟨rfl, by simp, by decide⟩

/-- C7 (amended): for every *non-empty* sorted sequence and every value,
`binary` returns some matching index when the value is present, absence when
it is not, and its presence/absence verdict agrees with `linear`'s (on the
empty sequence it panics instead). -/
theorem claim_C7_binary (s : List Int) (v : Int)
    (hs : is_sortedI s = true) (hne : s ≠ []) :
    (v ∈ s → ∃ i, binaryI s v = some (some i) ∧ s[i]? = some v) ∧
    (v ∉ s → binaryI s v = some none) ∧
    (∃ r, binaryI s v = some r ∧ r.isSome = (linearI s v).isSome) := by
  have hsort := (is_sortedI_iff_sorted s).mp hs
  obtain ⟨r, hr, hsound⟩ := binaryF_sound s.length s v le_rfl hne
  refine ⟨?_, ?_, r, hr, ?_⟩
  · intro hv
    obtain ⟨i, hi⟩ := binaryF_finds s.length s v le_rfl hsort hv
    refine ⟨i, hi, ?_⟩
    have hri : r = some i := Option.some_inj.mp (hr.symm.trans hi)
    exact hsound i hri
  · intro hv
    rcases r with _ | i
    · exact hr
    · exact absurd (List.mem_iff_getElem?.mpr ⟨i, hsound i rfl⟩) hv
  · rcases r with _ | i
    · have hnm : v ∉ s := by
        intro hv
        obtain ⟨i, hi⟩ := binaryF_finds s.length s v le_rfl hsort hv
        have := hr.symm.trans hi
        simp at this
      rw [linearI_isSome_eq_mem, if_neg hnm]
      rfl
    · have hm : v ∈ s := List.mem_iff_getElem?.mpr ⟨i, hsound i rfl⟩
      rw [linearI_isSome_eq_mem, if_pos hm]
      rfl

/-- C7 witness: the amended statement on the spec's binary-search scenario
`[1,2,4,8,16,32]` with `v = 8`. -/
theorem claim_C7_binary_witness :
    is_sortedI [1, 2, 4, 8, 16, 32] = true ∧
    (((8 : Int) ∈ ([1, 2, 4, 8, 16, 32] : List Int) →
      ∃ i, binaryI [1, 2, 4, 8, 16, 32] 8 = some (some i) ∧
        ([1, 2, 4, 8, 16, 32] : List Int)[i]? = some 8) ∧
    ((8 : Int) ∉ ([1, 2, 4, 8, 16, 32] : List Int) →
      binaryI [1, 2, 4, 8, 16, 32] 8 = some none) ∧
    (∃ r, binaryI [1, 2, 4, 8, 16, 32] 8 = some r ∧
      r.isSome = (linearI [1, 2, 4, 8, 16, 32] 8).isSome)) :=
  ⟨by decide, claim_C7_binary [1, 2, 4, 8, 16, 32] 8 (by decide) (by decide)⟩

/-- C8: `quick_partition` panics on the empty slice (usize underflow on
`n - 1`, modelled as `none`); on every non-empty slice it terminates and
returns an index `p < len` together with a permutation of the input in which
everything below `p` is `≤` the element at `p` and everything above `p` is
`≥` it. -/
theorem claim_C8_partition (s : List Int) (hne : s ≠ []) :
    quick_partitionI ([] : List Int) = none ∧
    ∃ s2 p, quick_partitionI s = some (s2, p) ∧ p < s.length ∧
      ((s2 : List Int) : Multiset Int) = (s : Multiset Int) ∧
      ∃ pv, s2[p]? = some pv ∧
        (∀ k, k < p → ∀ c, s2[k]? = some c → c ≤ pv) ∧
        (∀ k, p < k → ∀ c, s2[k]? = some c → pv ≤ c) := by
  obtain ⟨s2, p, pv, h1, h2, h3, h4, h5, h6⟩ := quick_partitionI_spec s hne
  exact ⟨rfl, s2, p, h1, h3, Multiset.coe_eq_coe.mpr h2, pv, h4, h5, h6⟩

/-- C8 witness: the statement at `[3,0,2]`. -/
theorem claim_C8_partition_witness :
    ([3, 0, 2] : List Int) ≠ [] ∧
    (quick_partitionI ([] : List Int) = none ∧
    ∃ s2 p, quick_partitionI [3, 0, 2] = some (s2, p) ∧ p < ([3, 0, 2] : List Int).length ∧
      ((s2 : List Int) : Multiset Int) = (([3, 0, 2] : List Int) : Multiset Int) ∧
      ∃ pv, s2[p]? = some pv ∧
        (∀ k, k < p → ∀ c, s2[k]? = some c → c ≤ pv) ∧
        (∀ k, p < k → ∀ c, s2[k]? = some c → pv ≤ c)) :=
  ⟨by decide, claim_C8_partition [3, 0, 2] (by decide)⟩

/-- C9: for every non-empty sequence, sorted or not, `binary` terminates
without an out-of-bounds access (it returns normally), and any returned
index is in bounds and holds exactly the searched value. -/
theorem claim_C9_binary_safe (s : List Int) (v : Int) (hne : s ≠ []) :
    ∃ r, binaryI s v = some r ∧ ∀ i, r = some i → i < s.length ∧ s[i]? = some v := by
  obtain ⟨r, hr, hsound⟩ := binaryF_sound s.length s v le_rfl hne
  refine ⟨r, hr, ?_⟩
  intro i hi
  exact ⟨(List.getElem?_eq_some_iff.mp (hsound i hi)).1, hsound i hi⟩

/-- C9 witness: the statement on the *unsorted* sequence `[2,1]` with
`v = 1` (found at index 1). -/
theorem claim_C9_binary_safe_witness :
    ([2, 1] : List Int) ≠ [] ∧
    ∃ r, binaryI [2, 1] 1 = some r ∧
      ∀ i, r = some i → i < ([2, 1] : List Int).length ∧
        ([2, 1] : List Int)[i]? = some 1 :=
  ⟨by decide, claim_C9_binary_safe [2, 1] 1 (by decide)⟩

/-- C10: with `2 ≤ step` and `step` greater than the length, `jump_step`
runs zero jump iterations and scans only `slice[1..len]` (shifted back to
absolute indices) — index 0 is never examined, so a value occurring only at
index 0 yields absence. -/
theorem claim_C10_jump_step_misses_head (s : List Int) (v : Int) (step : Nat)
    (hne : s ≠ []) (h2 : 2 ≤ step) (hbig : s.length < step) :
    jump_stepI s v step = some ((linearI (s.drop 1) v).map (· + 1)) ∧
    (v ∉ s.drop 1 → jump_stepI s v step = some none) := by
  have h := jump_stepI_big_step s v step hne h2 hbig
  refine ⟨h, ?_⟩
  intro hv
  rw [h, linearI_eq_none_iff.mpr hv]
  rfl

/-- C10 witness: `jump_step [5] 5 2` misses the match at index 0 and returns
absence even though `5` is present. -/
theorem claim_C10_jump_step_misses_head_witness :
    ([5] : List Int) ≠ [] ∧ 2 ≤ 2 ∧ ([5] : List Int).length < 2 ∧
    (jump_stepI [5] 5 2 = some ((linearI (([5] : List Int).drop 1) 5).map (· + 1)) ∧
    ((5 : Int) ∉ ([5] : List Int).drop 1 → jump_stepI [5] 5 2 = some none)) :=
  ⟨by decide, by decide, by decide,
    claim_C10_jump_step_misses_head [5] 5 2 (by decide) (by decide) (by decide)⟩

end SearchSort
